import Mathlib

/-!
Verification of the number-theory core of the `eternal-math` repository
(`eternal_math/number_theory.py`, `eternal_math/core.py`) against its
specification.  Python functions are shallowly embedded as Lean functions:
Python lists of booleans are modelled by their lookup functions, Python
`range` by `pyrange`, Python arbitrary-precision integers by `ℤ` (or `ℕ`
where the code guarantees non-negativity), Python floor division / modulo by
`Int.fdiv` / `Int.fmod`, and raised exceptions by `Except PyErr`.
`int(x ** 0.5)` / `int(math.sqrt(x))` on a non-negative integer are modelled
as `Nat.sqrt` (exact for all inputs the code reaches them with).
-/

/-- A Python-level exception kind (only the kinds the embedded code can raise). -/
inductive PyErr where
  | valueError : PyErr
  | zeroDivisionError : PyErr
deriving DecidableEq

deriving instance DecidableEq for Except

/-- Python `range(start, stop, step)` for a positive `step`, as a list:
`[start, start + step, ...)` strictly below `stop`. -/
def pyrange (start stop step : ℕ) : List ℕ :=
  List.range' start ((stop - start + step - 1) / step) step

theorem mem_pyrange {start stop step k : ℕ} (hstep : 0 < step) :
    k ∈ pyrange start stop step ↔
      start ≤ k ∧ k < stop ∧ step ∣ (k - start) := by
  unfold pyrange
  rw [List.mem_range']
  constructor
  · rintro ⟨i, hi, rfl⟩
    refine ⟨Nat.le_add_right _ _, ?_, ⟨i, by omega⟩⟩
    have h1 : (i + 1) * step ≤ ((stop - start + step - 1) / step) * step :=
      Nat.mul_le_mul_right _ hi
    have h2 : ((stop - start + step - 1) / step) * step ≤ stop - start + step - 1 :=
      Nat.div_mul_le_self _ _
    have h3 : step * i + step ≤ stop - start + step - 1 := by
      calc step * i + step = (i + 1) * step := by ring
        _ ≤ _ := le_trans h1 h2
    omega
  · rintro ⟨h1, h2, j, hj⟩
    refine ⟨j, ?_, by omega⟩
    have hks : k - start = step * j := hj
    have h3 : step * j + step ≤ stop - start + step - 1 := by omega
    have h4 : (j + 1) * step ≤ stop - start + step - 1 := by
      calc (j + 1) * step = step * j + step := by ring
        _ ≤ _ := h3
    have := (Nat.le_div_iff_mul_le hstep).mpr h4
    omega

theorem mem_pyrange_one {start stop k : ℕ} :
    k ∈ pyrange start stop 1 ↔ start ≤ k ∧ k < stop := by
  rw [mem_pyrange Nat.one_pos]
  simp

theorem pyrange_eq_nil {start stop step : ℕ} (h : stop ≤ start) :
    pyrange start stop step = [] := by
  unfold pyrange
  have : stop - start = 0 := by omega
  rw [this]
  have : (0 + step - 1) / step = 0 := by
    rcases Nat.eq_zero_or_pos step with h0 | h0
    · simp [h0]
    · exact Nat.div_eq_of_lt (by omega)
  rw [this]
  rfl

theorem pyrange_one_count (start stop : ℕ) :
    pyrange start stop 1 = List.range' start (stop - start) 1 := by
  unfold pyrange
  congr 1
  omega

/-- Splitting a step-one Python range at an intermediate point. -/
theorem pyrange_one_append {a b c : ℕ} (hab : a ≤ b) (hbc : b ≤ c) :
    pyrange a b 1 ++ pyrange b c 1 = pyrange a c 1 := by
  rw [pyrange_one_count, pyrange_one_count, pyrange_one_count]
  have h := List.range'_append a (b - a) (c - b) 1
  have h1 : a + 1 * (b - a) = b := by omega
  rw [h1] at h
  have h2 : c - b + (b - a) = c - a := by omega
  rw [h2] at h
  exact h

/-- Marking a list of positions `false` in a boolean lookup function:
the fold of `Function.update` reads back as a membership test. -/
theorem foldl_update_false (l : List ℕ) (s : ℕ → Bool) (k : ℕ) :
    (l.foldl (fun t j => Function.update t j false) s) k =
      if k ∈ l then false else s k := by
  induction l generalizing s with
  | nil => simp
  | cons j l ih =>
    simp only [List.foldl_cons, ih, List.mem_cons]
    by_cases hkl : k ∈ l
    · simp [hkl]
    · by_cases hkj : k = j
      · simp [hkl, hkj, Function.update_apply]
      · simp [hkl, hkj, Function.update_apply]

/-- Integer square root, modelling Python `int(x ** 0.5)` / `int(math.sqrt(x))`
on a non-negative integer.  Written as a structural fold so that the kernel can
evaluate it (`Nat.sqrt` itself is well-founded recursion and does not reduce);
`pysqrt_eq` shows it agrees with `Nat.sqrt`. -/
def pysqrt (n : ℕ) : ℕ :=
  (List.range (n + 1)).foldl (fun acc m => if m * m ≤ n then m else acc) 0

theorem pysqrt_foldl_spec (n : ℕ) :
    ∀ c, 1 ≤ c →
      ((List.range c).foldl (fun acc m => if m * m ≤ n then m else acc) 0) *
          ((List.range c).foldl (fun acc m => if m * m ≤ n then m else acc) 0) ≤ n ∧
        (∀ m < c, m * m ≤ n →
          m ≤ (List.range c).foldl (fun acc m => if m * m ≤ n then m else acc) 0) ∧
        (List.range c).foldl (fun acc m => if m * m ≤ n then m else acc) 0 < c := by
  intro c
  induction c with
  | zero => omega
  | succ c ih =>
    intro _
    rcases Nat.eq_zero_or_pos c with hc | hc
    · subst hc
      have h1 : List.range 1 = [0] := rfl
      simp [h1, Nat.zero_le]
    · have hstep : (List.range (c + 1)).foldl (fun acc m => if m * m ≤ n then m else acc) 0 =
          (fun acc m => if m * m ≤ n then m else acc)
            ((List.range c).foldl (fun acc m => if m * m ≤ n then m else acc) 0) c := by
        rw [List.range_succ, List.foldl_append, List.foldl_cons, List.foldl_nil]
      rcases ih hc with ⟨ih1, ih2, ih3⟩
      rw [hstep]
      by_cases hcc : c * c ≤ n
      · simp only [if_pos hcc]
        exact ⟨hcc, fun m hm _ => by omega, by omega⟩
      · simp only [if_neg hcc]
        refine ⟨ih1, ?_, by omega⟩
        intro m hm hmn
        rcases Nat.lt_or_ge m c with h | h
        · exact ih2 m h hmn
        · have : m = c := by omega
          subst this
          exact absurd hmn hcc

theorem pysqrt_eq (n : ℕ) : pysqrt n = Nat.sqrt n := by
  rcases pysqrt_foldl_spec n (n + 1) (by omega) with ⟨h1, h2, h3⟩
  have hle : pysqrt n ≤ Nat.sqrt n := Nat.le_sqrt.mpr h1
  have hge : Nat.sqrt n ≤ pysqrt n := by
    apply h2
    · have := Nat.sqrt_le_self n
      omega
    · exact Nat.sqrt_le n
  omega

/-!
## The sieve engine (`sieve_of_eratosthenes` and `_segmented_sieve`)
-/

/-- The boolean array of the standard Sieve of Eratosthenes body after all
marking passes, modelled as the lookup function of the Python list `sieve`
(`sieve = [True] * (limit + 1)`, `sieve[0] = sieve[1] = False`, then for
`i in range(2, int(limit**0.5) + 1)`: if `sieve[i]`, mark
`range(i*i, limit + 1, i)` as `False`). -/
def sieveMarks (limit : ℕ) : ℕ → Bool :=
  (pyrange 2 (pysqrt limit + 1) 1).foldl
    (fun s i =>
      if s i then
        (pyrange (i * i) (limit + 1) i).foldl (fun t j => Function.update t j false) s
      else s)
    (fun k => decide (2 ≤ k))

/-- The list returned by the standard (non-segmented) sieve path:
`[i for i in range(2, limit + 1) if sieve[i]]`. -/
def standardSieveList (limit : ℕ) : List ℕ :=
  (pyrange 2 (limit + 1) 1).filter (sieveMarks limit)

/-- The specification list: the ascending primes `≤ limit`. -/
def primesUpTo (limit : ℕ) : List ℕ :=
  (pyrange 2 (limit + 1) 1).filter (fun k => decide (Nat.Prime k))

/-- `k` is struck out by some sieve pass `i ≤ m`. -/
def Strikes (limit m k : ℕ) : Prop :=
  ∃ i, 2 ≤ i ∧ i ≤ m ∧ i ∣ k ∧ i * i ≤ k ∧ k ≤ limit

/-- The sieve state after processing outer-loop indices `2, ..., m`. -/
def sieveMarksUpTo (limit m : ℕ) : ℕ → Bool :=
  (pyrange 2 (m + 1) 1).foldl
    (fun s i =>
      if s i then
        (pyrange (i * i) (limit + 1) i).foldl (fun t j => Function.update t j false) s
      else s)
    (fun k => decide (2 ≤ k))

theorem sieveMarks_eq_upTo (limit : ℕ) :
    sieveMarks limit = sieveMarksUpTo limit (Nat.sqrt limit) := by
  unfold sieveMarks sieveMarksUpTo
  rw [pysqrt_eq]

theorem mem_markRange {limit i k : ℕ} (hi : 0 < i) :
    k ∈ pyrange (i * i) (limit + 1) i ↔ i * i ≤ k ∧ k ≤ limit ∧ i ∣ k := by
  rw [mem_pyrange hi]
  constructor
  · rintro ⟨h1, h2, h3⟩
    refine ⟨h1, by omega, ?_⟩
    have : i ∣ i * i := Dvd.intro i rfl
    have h4 : k = (k - i * i) + i * i := by omega
    rw [h4]
    exact Nat.dvd_add h3 this
  · rintro ⟨h1, h2, h3⟩
    refine ⟨h1, by omega, ?_⟩
    have : i ∣ i * i := Dvd.intro i rfl
    exact Nat.dvd_sub' h3 this

theorem sieveMarksUpTo_empty (limit m : ℕ) (hm : m ≤ 1) :
    sieveMarksUpTo limit m = fun k => decide (2 ≤ k) := by
  unfold sieveMarksUpTo
  rw [pyrange_eq_nil (by omega)]
  rfl

theorem not_strikes_of_le_one {limit m k : ℕ} (hm : m ≤ 1) : ¬Strikes limit m k := by
  rintro ⟨i, hi2, him, -⟩; omega

theorem strikes_succ_iff (limit m k : ℕ) (hm : 1 ≤ m) :
    Strikes limit (m + 1) k ↔
      (Strikes limit m k ∨ ((m + 1) ∣ k ∧ (m + 1) * (m + 1) ≤ k ∧ k ≤ limit)) := by
  constructor
  · rintro ⟨i, h2i, him, hdvd, hsq, hlim⟩
    rcases Nat.lt_or_ge i (m + 1) with hlt | hge
    · exact Or.inl ⟨i, h2i, by omega, hdvd, hsq, hlim⟩
    · have : i = m + 1 := by omega
      subst this
      exact Or.inr ⟨hdvd, hsq, hlim⟩
  · rintro (⟨i, h2i, him, hdvd, hsq, hlim⟩ | ⟨hdvd, hsq, hlim⟩)
    · exact ⟨i, h2i, by omega, hdvd, hsq, hlim⟩
    · exact ⟨m + 1, by omega, le_refl _, hdvd, hsq, hlim⟩

theorem sieveMarksUpTo_spec (limit : ℕ) :
    ∀ m k, sieveMarksUpTo limit m k = true ↔ (2 ≤ k ∧ ¬Strikes limit m k) := by
  intro m
  induction m with
  | zero =>
    intro k
    rw [sieveMarksUpTo_empty limit 0 (by omega)]
    simpa using fun _ => not_strikes_of_le_one (by omega)
  | succ m ih =>
    intro k
    rcases Nat.lt_or_ge m 1 with hm | hm
    · interval_cases m
      rw [sieveMarksUpTo_empty limit 1 (by omega)]
      simpa using fun _ => not_strikes_of_le_one (by omega)
    · -- m ≥ 1 : split the range at the last index `m + 1`
      have hsplit : pyrange 2 (m + 1 + 1) 1 = pyrange 2 (m + 1) 1 ++ [m + 1] := by
        rw [pyrange_one_count, pyrange_one_count]
        have h1 : m + 1 + 1 - 2 = (m - 1) + 1 := by omega
        have h2 : m + 1 - 2 = m - 1 := by omega
        rw [h1, h2, List.range'_concat]
        congr 2
        omega
      have hstep : ∀ x, sieveMarksUpTo limit (m + 1) x =
          (if sieveMarksUpTo limit m (m + 1) then
            (pyrange ((m + 1) * (m + 1)) (limit + 1) (m + 1)).foldl
              (fun t j => Function.update t j false) (sieveMarksUpTo limit m)
          else sieveMarksUpTo limit m) x := by
        intro x
        show List.foldl
            (fun s i =>
              if s i then
                (pyrange (i * i) (limit + 1) i).foldl (fun t j => Function.update t j false) s
              else s)
            (fun k => decide (2 ≤ k)) (pyrange 2 (m + 1 + 1) 1) x = _
        rw [hsplit, List.foldl_append]
        rfl
      rw [hstep k]
      by_cases hmarked : sieveMarksUpTo limit m (m + 1) = true
      · -- `m + 1` survived so far: its multiples from `(m+1)²` get marked now
        rw [if_pos hmarked, foldl_update_false]
        have hmem := @mem_markRange limit (m + 1) k (by omega)
        by_cases hk : k ∈ pyrange ((m + 1) * (m + 1)) (limit + 1) (m + 1)
        · rw [if_pos hk]
          rcases hmem.mp hk with ⟨h1, h2, h3⟩
          have hs : Strikes limit (m + 1) k := ⟨m + 1, by omega, le_refl _, h3, h1, h2⟩
          simp [hs]
        · rw [if_neg hk, ih k]
          have hnot : ¬((m + 1) ∣ k ∧ (m + 1) * (m + 1) ≤ k ∧ k ≤ limit) := by
            rintro ⟨h3, h1, h2⟩
            exact hk (hmem.mpr ⟨h1, h2, h3⟩)
          rw [and_congr_right_iff]
          intro _
          rw [not_iff_not, strikes_succ_iff limit m k hm]
          tauto
      · -- `m + 1` is already struck out: no marking happens in this pass,
        -- and anything it would strike is already struck by a smaller index
        rw [if_neg hmarked, ih k]
        have hstruck : Strikes limit m (m + 1) := by
          by_contra hc
          exact hmarked ((ih (m + 1)).mpr ⟨by omega, hc⟩)
        have hiff : Strikes limit (m + 1) k ↔ Strikes limit m k := by
          rw [strikes_succ_iff limit m k hm]
          constructor
          · rintro (h | ⟨hdvd, hsq, hlim⟩)
            · exact h
            · rcases hstruck with ⟨j, h2j, hjm, hjdvd, hjsq, hjlim⟩
              exact ⟨j, h2j, hjm, dvd_trans hjdvd hdvd,
                le_trans (le_trans hjsq (Nat.le_mul_of_pos_left _ (by omega))) hsq, hlim⟩
          · exact Or.inl
        rw [and_congr_right_iff]
        intro _
        rw [not_iff_not]
        exact hiff.symm

/-- The central sieve invariant: in range, a cell is `true` iff it is prime. -/
theorem sieveMarks_iff_prime {limit k : ℕ} (h2 : 2 ≤ k) (hlim : k ≤ limit) :
    sieveMarks limit k = true ↔ Nat.Prime k := by
  rw [sieveMarks_eq_upTo, sieveMarksUpTo_spec]
  constructor
  · rintro ⟨-, hnS⟩
    by_contra hnp
    apply hnS
    have hq := Nat.minFac_dvd k
    have hqp : Nat.Prime (Nat.minFac k) := Nat.minFac_prime (by omega)
    have hqsq : Nat.minFac k * Nat.minFac k ≤ k := by
      have := Nat.minFac_sq_le_self (show 0 < k by omega) hnp
      rwa [pow_two] at this
    refine ⟨Nat.minFac k, hqp.two_le, ?_, hq, hqsq, hlim⟩
    rw [Nat.le_sqrt]
    exact le_trans hqsq hlim
  · intro hp
    refine ⟨h2, ?_⟩
    rintro ⟨i, h2i, him, hdvd, hsq, hklim⟩
    rcases (Nat.Prime.eq_one_or_self_of_dvd hp i hdvd) with h1 | hk
    · omega
    · subst hk
      nlinarith

/-- The standard sieve path returns exactly the ascending primes up to `limit`. -/
theorem standardSieveList_eq (limit : ℕ) :
    standardSieveList limit = primesUpTo limit := by
  unfold standardSieveList primesUpTo
  apply List.filter_congr
  intro k hk
  rcases mem_pyrange_one.mp hk with ⟨h2, hlt⟩
  have := @sieveMarks_iff_prime limit k h2 (by omega)
  by_cases hp : Nat.Prime k
  · simp [hp, this.mpr hp]
  · have : sieveMarks limit k ≠ true := fun h => hp (this.mp h)
    simp [hp, Bool.not_eq_true] at this ⊢
    simp [this]

theorem mem_primesUpTo {s k : ℕ} : k ∈ primesUpTo s ↔ Nat.Prime k ∧ k ≤ s := by
  unfold primesUpTo
  rw [List.mem_filter, mem_pyrange_one]
  constructor
  · rintro ⟨⟨h2, hlt⟩, hp⟩
    exact ⟨of_decide_eq_true hp, by omega⟩
  · rintro ⟨hp, hle⟩
    exact ⟨⟨hp.two_le, by omega⟩, decide_eq_true hp⟩

/-- Ceiling division: `(a + p - 1) / p` is `⌈a / p⌉` for positive `p`. -/
theorem ceil_div_le_iff {a p t : ℕ} (hp : 0 < p) :
    (a + p - 1) / p ≤ t ↔ a ≤ p * t := by
  constructor
  · intro h
    have h1 : p * ((a + p - 1) / p) ≤ p * t := Nat.mul_le_mul_left p h
    have h2 : a + p - 1 < p * ((a + p - 1) / p + 1) :=
      Nat.lt_mul_div_succ _ hp
    have h3 : p * ((a + p - 1) / p + 1) = p * ((a + p - 1) / p) + p := by ring
    omega
  · intro h
    have h1 : a + p - 1 ≤ p * t + p - 1 := by omega
    have h2 : (p * t + p - 1) / p = t + (p - 1) / p := by
      have e1 : p * t + p - 1 = p - 1 + t * p := by
        have := Nat.mul_comm p t; omega
      rw [e1, Nat.add_mul_div_right _ _ hp, Nat.add_comm]
    have h3 : (p - 1) / p = 0 := Nat.div_eq_of_lt (by omega)
    calc (a + p - 1) / p ≤ (p * t + p - 1) / p := Nat.div_le_div_right h1
      _ = t := by rw [h2, h3]; exact Nat.add_zero t

/-!
### The segmented sieve (`_segmented_sieve`)
-/

/-- Body of the per-segment loop of `_segmented_sieve`: allocate the window's
boolean array, mark multiples of every base prime starting at
`max(prime * prime, (segment_start + prime - 1) // prime * prime)`, then append
the unmarked candidates above `sqrt_limit`.  The window array is modelled by
its lookup function, keyed by candidate value (Python indexes it by
`value - segment_start`). -/
def segStep (limit sqrtLimit segmentSize : ℕ) (basePrimes : List ℕ)
    (primes : List ℕ) (segmentStart : ℕ) : List ℕ :=
  primes ++
    (pyrange segmentStart (min (segmentStart + segmentSize - 1) limit + 1) 1).filter
      (fun candidate =>
        (basePrimes.foldl
          (fun seg p =>
            (pyrange (max (p * p) ((segmentStart + p - 1) / p * p))
              (min (segmentStart + segmentSize - 1) limit + 1) p).foldl
              (fun t j => Function.update t j false) seg)
          (fun _ => true)) candidate
        && decide (sqrtLimit < candidate))

/-- Base primes of `_segmented_sieve`: the inline standard sieve up to
`sqrt_limit` (guarded by `sqrt_limit >= 2` as in the source). -/
def basePrimesOf (limit : ℕ) : List ℕ :=
  if 2 ≤ pysqrt limit then standardSieveList (pysqrt limit) else []

/-- The segmented Sieve of Eratosthenes, `_segmented_sieve(limit)`. -/
def segmented_sieve (limit : ℕ) : List ℕ :=
  (pyrange (pysqrt limit + 1) (limit + 1) (max (pysqrt limit) 32768)).foldl
    (segStep limit (pysqrt limit) (max (pysqrt limit) 32768) (basePrimesOf limit))
    (basePrimesOf limit)

theorem basePrimesOf_eq (limit : ℕ) :
    basePrimesOf limit = primesUpTo (Nat.sqrt limit) := by
  unfold basePrimesOf
  rw [pysqrt_eq]
  by_cases h : 2 ≤ Nat.sqrt limit
  · rw [if_pos h, standardSieveList_eq]
  · rw [if_neg h]
    unfold primesUpTo
    rw [pyrange_eq_nil (by omega)]
    rfl

/-- Marking passes over a window: a cell is `true` iff no pass touches it. -/
theorem foldl_marklists (P : List ℕ) (L : ℕ → List ℕ) (s : ℕ → Bool) (k : ℕ) :
    (P.foldl (fun seg p => (L p).foldl (fun t j => Function.update t j false) seg) s) k = true ↔
      ((∀ p ∈ P, k ∉ L p) ∧ s k = true) := by
  induction P generalizing s with
  | nil => simp
  | cons p P ih =>
    rw [List.foldl_cons, ih]
    have h := foldl_update_false (L p) s k
    by_cases hk : k ∈ L p
    · rw [if_pos hk] at h
      simp [h, hk]
    · rw [if_neg hk] at h
      simp [h, hk]

/-- Membership in the marking range of base prime `p` inside a window
`[segmentStart, segmentEnd]`, for candidates at or beyond the window start. -/
theorem mem_segMarkRange {p segmentStart segmentEnd c : ℕ} (hp : 0 < p)
    (hc : segmentStart ≤ c) :
    c ∈ pyrange (max (p * p) ((segmentStart + p - 1) / p * p)) (segmentEnd + 1) p ↔
      p ∣ c ∧ p * p ≤ c ∧ c ≤ segmentEnd := by
  rw [mem_pyrange hp]
  have hdvdstart : p ∣ max (p * p) ((segmentStart + p - 1) / p * p) := by
    rcases max_choice (p * p) ((segmentStart + p - 1) / p * p) with h | h <;> rw [h]
    · exact dvd_mul_left p p
    · exact dvd_mul_left p _
  constructor
  · rintro ⟨h1, h2, h3⟩
    have hpc : p ∣ c := by
      have : c = (c - max (p * p) ((segmentStart + p - 1) / p * p)) +
          max (p * p) ((segmentStart + p - 1) / p * p) := by omega
      rw [this]
      exact Nat.dvd_add h3 hdvdstart
    exact ⟨hpc, le_trans (le_max_left _ _) h1, by omega⟩
  · rintro ⟨h1, h2, h3⟩
    have hceil : (segmentStart + p - 1) / p * p ≤ c := by
      rcases h1 with ⟨t, rfl⟩
      have := (@ceil_div_le_iff segmentStart p t hp).mpr hc
      calc (segmentStart + p - 1) / p * p ≤ t * p := Nat.mul_le_mul_right p this
        _ = p * t := by ring
    refine ⟨max_le h2 hceil, by omega, ?_⟩
    exact Nat.dvd_sub' h1 hdvdstart

/-- A processed window of the segmented sieve collects exactly the primes in
`[segmentStart, segmentEnd]`. -/
theorem segStep_collects {limit segmentStart segmentEnd : ℕ} (basePrimes : List ℕ)
    (hbp : ∀ p, p ∈ basePrimes ↔ (Nat.Prime p ∧ p ≤ Nat.sqrt limit))
    (hstart : Nat.sqrt limit < segmentStart) (hend : segmentEnd ≤ limit)
    (hsl : 1 ≤ Nat.sqrt limit) :
    ((pyrange segmentStart (segmentEnd + 1) 1).filter
      (fun candidate =>
        (basePrimes.foldl
          (fun seg p =>
            (pyrange (max (p * p) ((segmentStart + p - 1) / p * p))
              (segmentEnd + 1) p).foldl
              (fun t j => Function.update t j false) seg)
          (fun _ => true)) candidate
        && decide (Nat.sqrt limit < candidate))) =
      (pyrange segmentStart (segmentEnd + 1) 1).filter (fun k => decide (Nat.Prime k)) := by
  apply List.filter_congr
  intro c hc
  rcases mem_pyrange_one.mp hc with ⟨hc1, hc2⟩
  have hc2' : c ≤ segmentEnd := by omega
  have hcsqrt : Nat.sqrt limit < c := by omega
  have hc2le : 2 ≤ c := by omega
  have hmark := foldl_marklists basePrimes
    (fun p => pyrange (max (p * p) ((segmentStart + p - 1) / p * p)) (segmentEnd + 1) p)
    (fun _ => true) c
  have hiff : (basePrimes.foldl
      (fun seg p =>
        (pyrange (max (p * p) ((segmentStart + p - 1) / p * p))
          (segmentEnd + 1) p).foldl (fun t j => Function.update t j false) seg)
      (fun _ => true)) c = true ↔ Nat.Prime c := by
    rw [hmark]
    constructor
    · rintro ⟨hnone, -⟩
      by_contra hnp
      have hq := Nat.minFac_dvd c
      have hqp : Nat.Prime (Nat.minFac c) := Nat.minFac_prime (by omega)
      have hqsq : Nat.minFac c * Nat.minFac c ≤ c := by
        have := Nat.minFac_sq_le_self (show 0 < c by omega) hnp
        rwa [pow_two] at this
      have hqmem : Nat.minFac c ∈ basePrimes := by
        rw [hbp]
        refine ⟨hqp, ?_⟩
        rw [Nat.le_sqrt]
        omega
      exact hnone (Nat.minFac c) hqmem
        ((mem_segMarkRange hqp.pos hc1).mpr ⟨hq, hqsq, hc2'⟩)
    · intro hp
      refine ⟨?_, rfl⟩
      intro p hpmem hpc
      rcases (hbp p).mp hpmem with ⟨hpp, hple⟩
      rcases (mem_segMarkRange hpp.pos hc1).mp hpc with ⟨hdvd, hsq, -⟩
      rcases (Nat.Prime.eq_one_or_self_of_dvd hp p hdvd) with h1 | h1
      · exact absurd h1 hpp.one_lt.ne'
      · omega
  by_cases hp : Nat.Prime c
  · simp [hiff.mpr hp, hcsqrt, hp]
  · have : (basePrimes.foldl
        (fun seg p =>
          (pyrange (max (p * p) ((segmentStart + p - 1) / p * p))
            (segmentEnd + 1) p).foldl (fun t j => Function.update t j false) seg)
        (fun _ => true)) c ≠ true := fun h => hp (hiff.mp h)
    simp only [Bool.not_eq_true] at this
    simp [this, hp]

/-- Folding `segStep` across the consecutive windows covering
`[a, limit]` appends exactly the primes of `[a, limit]`. -/
theorem segStep_foldl (limit segmentSize : ℕ) (basePrimes : List ℕ)
    (hbp : ∀ p, p ∈ basePrimes ↔ (Nat.Prime p ∧ p ≤ Nat.sqrt limit))
    (hsize : 0 < segmentSize) :
    ∀ (C a : ℕ) (acc : List ℕ),
      Nat.sqrt limit < a →
      (C = 0 → limit < a) →
      limit + 1 ≤ a + segmentSize * C →
      (∀ c', c' < C → a + segmentSize * c' ≤ limit) →
      (List.range' a C segmentSize).foldl
          (segStep limit (Nat.sqrt limit) segmentSize basePrimes) acc =
        acc ++ (pyrange a (limit + 1) 1).filter (fun k => decide (Nat.Prime k)) := by
  intro C
  induction C with
  | zero =>
    intro a acc ha h0 _ _
    rw [pyrange_eq_nil (by omega : limit + 1 ≤ a)]
    simp
  | succ C ih =>
    intro a acc ha h0 hcover hstarts
    have halim : a ≤ limit := by
      have := hstarts 0 (by omega)
      simpa using this
    have hsl : 1 ≤ Nat.sqrt limit := Nat.le_sqrt.mpr (by omega)
    rw [List.range'_succ, List.foldl_cons]
    have hsegStep : segStep limit (Nat.sqrt limit) segmentSize basePrimes acc a =
        acc ++ (pyrange a (min (a + segmentSize - 1) limit + 1) 1).filter
          (fun k => decide (Nat.Prime k)) := by
      unfold segStep
      rw [segStep_collects basePrimes hbp ha (by omega) hsl]
    rcases Nat.eq_zero_or_pos C with hC | hC
    · -- last window : it reaches `limit`
      subst hC
      have hminEq : min (a + segmentSize - 1) limit = limit := by
        have : limit + 1 ≤ a + segmentSize * 1 := hcover
        omega
      rw [hsegStep, hminEq]
      have hnext : List.range' (a + segmentSize) 0 segmentSize = [] := rfl
      rw [hnext]
      rfl
    · -- an inner window : it is full, and the remaining windows continue after it
      have hnextstart : a + segmentSize ≤ limit := by
        have := hstarts 1 (by omega)
        have h1 : segmentSize * 1 = segmentSize := by ring
        omega
      have hminEq : min (a + segmentSize - 1) limit = a + segmentSize - 1 := by omega
      rw [hsegStep, hminEq]
      have hrec := ih (a + segmentSize) (acc ++ (pyrange a (a + segmentSize - 1 + 1) 1).filter
          (fun k => decide (Nat.Prime k))) (by omega) (by omega)
          (by
            have h1 : segmentSize * (C + 1) = segmentSize * C + segmentSize := by ring
            omega)
          (by
            intro c' hc'
            have := hstarts (c' + 1) (by omega)
            have h1 : segmentSize * (c' + 1) = segmentSize * c' + segmentSize := by ring
            omega)
      rw [hrec, List.append_assoc]
      congr 1
      have he : a + segmentSize - 1 + 1 = a + segmentSize := by omega
      rw [he, ← List.filter_append, pyrange_one_append (by omega) (by omega)]

/-- The segmented sieve returns the same list as the standard sieve path, for
every limit: segmentation is a memory optimisation, not a semantic change. -/
theorem segmented_sieve_eq_standard (limit : ℕ) :
    segmented_sieve limit = standardSieveList limit := by
  rw [standardSieveList_eq]
  rcases Nat.eq_zero_or_pos limit with h0 | h0
  · subst h0
    rfl
  unfold segmented_sieve pyrange
  rw [pysqrt_eq]
  have hsize : 0 < max (Nat.sqrt limit) 32768 := by
    have : (0:ℕ) < 32768 := by omega
    omega
  set s := Nat.sqrt limit with hs
  set size := max s 32768 with hsizedef
  set C := (limit + 1 - (s + 1) + size - 1) / size with hC
  have hbp : ∀ p, p ∈ basePrimesOf limit ↔ (Nat.Prime p ∧ p ≤ Nat.sqrt limit) := by
    intro p
    rw [basePrimesOf_eq, mem_primesUpTo]
  have hsle : s ≤ limit := Nat.sqrt_le_self limit
  have hs1 : 1 ≤ s := Nat.le_sqrt.mpr (by omega)
  have hcover : limit + 1 ≤ (s + 1) + size * C := by
    have h1 : (limit + 1 - (s + 1) + size - 1) / size ≤ C := le_of_eq hC.symm
    have h2 := (@ceil_div_le_iff (limit + 1 - (s + 1)) size C hsize).mp h1
    omega
  have hstarts : ∀ c', c' < C → (s + 1) + size * c' ≤ limit := by
    intro c' hc'
    have h1 : c' + 1 ≤ (limit + 1 - (s + 1) + size - 1) / size := by omega
    have h2 : (c' + 1) * size ≤ size * ((limit + 1 - (s + 1) + size - 1) / size) :=
      le_trans (le_of_eq (Nat.mul_comm _ _)) (Nat.mul_le_mul_left size h1)
    have h3 : size * ((limit + 1 - (s + 1) + size - 1) / size) ≤ limit + 1 - (s + 1) + size - 1 :=
      Nat.mul_div_le _ _
    have h4 : (c' + 1) * size = c' * size + size := by ring
    have h5 : size * c' = c' * size := Nat.mul_comm _ _
    omega
  have h0C : C = 0 → limit < s + 1 := by
    intro hC0
    rw [hC] at hC0
    have hlt : limit + 1 - (s + 1) + size - 1 < size := (Nat.div_eq_zero_iff hsize).mp hC0
    omega
  have := segStep_foldl limit size (basePrimesOf limit) hbp hsize C (s + 1)
      (basePrimesOf limit) (by omega) h0C hcover hstarts
  rw [this, basePrimesOf_eq]
  unfold primesUpTo
  rw [← List.filter_append, pyrange_one_append (by omega) (by omega)]

theorem sorted_pyrange_one (a b : ℕ) : List.Sorted (· < ·) (pyrange a b 1) := by
  rw [pyrange_one_count]
  unfold List.Sorted
  rw [List.range'_eq_map_range]
  exact List.Pairwise.map _ (fun x y h => by omega) (List.pairwise_lt_range _)

theorem sorted_primesUpTo (limit : ℕ) : List.Sorted (· < ·) (primesUpTo limit) :=
  List.Sorted.filter _ (sorted_pyrange_one 2 (limit + 1))

/-- `sieve_of_eratosthenes(limit)`: empty below 2, segmented sieve above the
1,000,000 threshold, standard sieve otherwise. -/
def sieve_of_eratosthenes (limit : ℤ) : List ℕ :=
  if limit < 2 then []
  else if limit > 1000000 then segmented_sieve limit.toNat
  else standardSieveList limit.toNat

theorem sieve_of_eratosthenes_eq_primesUpTo {limit : ℤ} (h : 2 ≤ limit) :
    sieve_of_eratosthenes limit = primesUpTo limit.toNat := by
  unfold sieve_of_eratosthenes
  rw [if_neg (by omega)]
  by_cases hbig : limit > 1000000
  · rw [if_pos hbig, segmented_sieve_eq_standard, standardSieveList_eq]
  · rw [if_neg hbig, standardSieveList_eq]

/-- C1.  For every integer limit, the segmented sieve path (`_segmented_sieve`)
and the standard sieve path produce identical output: both return the ascending
primes up to the limit, so segmentation changes memory behaviour only, never
the returned sequence. -/
theorem segmented_sieve_refines_standard :
    ∀ limit : ℕ, segmented_sieve limit = standardSieveList limit ∧
      segmented_sieve limit = primesUpTo limit := by
  intro limit
  refine ⟨segmented_sieve_eq_standard limit, ?_⟩
  rw [segmented_sieve_eq_standard, standardSieveList_eq]

/-- C2.  For every integer limit, `sieve_of_eratosthenes(limit)` returns
exactly the primes up to the limit, in strictly ascending order (hence with no
duplicates and no composites); for a limit below 2 it returns the empty
sequence, and for limit 2 it returns `[2]`. -/
theorem sieve_of_eratosthenes_spec :
    ∀ limit : ℤ,
      (∀ k : ℕ, k ∈ sieve_of_eratosthenes limit ↔ (Nat.Prime k ∧ (k : ℤ) ≤ limit)) ∧
      List.Sorted (· < ·) (sieve_of_eratosthenes limit) ∧
      (limit < 2 → sieve_of_eratosthenes limit = []) ∧
      (limit = 2 → sieve_of_eratosthenes limit = [2]) := by
  intro limit
  by_cases h2 : limit < 2
  · have hnil : sieve_of_eratosthenes limit = [] := by
      unfold sieve_of_eratosthenes
      rw [if_pos h2]
    refine ⟨?_, by rw [hnil]; exact List.sorted_nil, fun _ => hnil, fun habs => by omega⟩
    intro k
    rw [hnil]
    simp only [List.not_mem_nil, false_iff, not_and]
    intro hk
    have := hk.two_le
    omega
  · push_neg at h2
    have heq := sieve_of_eratosthenes_eq_primesUpTo h2
    refine ⟨?_, ?_, fun habs => by omega, ?_⟩
    · intro k
      rw [heq, mem_primesUpTo]
      constructor
      · rintro ⟨hp, hle⟩
        exact ⟨hp, by omega⟩
      · rintro ⟨hp, hle⟩
        exact ⟨hp, by omega⟩
    · rw [heq]
      exact sorted_primesUpTo _
    · intro hl2
      subst hl2
      rw [heq]
      decide

/-!
## Goldbach verification (`verify_goldbach_conjecture`)

The source iterates `for p in set(sieve_of_eratosthenes(limit))` and breaks on
`p > n // 2`; that break is only safe when the primes are visited in ascending
order.  CPython iterates a set in hash-table slot order, which for these
small-integer keys is ascending only while every prime is smaller than the
table size, so that each occupies its own slot.  That fails at large limits:
at `limit = 1_000_000` the 78498 primes end up in a 131072-slot table, slot 1
holds the wrapped prime 786433 (the only prime up to 10^6 congruent to 1
modulo 131072; slots 0 and 1 admit no smaller occupant), so the very first
prime iterated exceeds `n // 2` for every `n` and the function returns False
already at `n = 4`, although 4 = 2 + 2.  The spec's Design Notes flag the
set-based break as a latent bug and require iterating an ascending sequence
instead.  `verify_goldbach_ascending` below is that corrected algorithm — the
same loop with the primes visited in ascending order.  It is not a faithful
embedding of the CPython behaviour at limits where set iteration leaves
ascending order; the theorems below are about the corrected algorithm.
-/

/-- Inner search loop of `verify_goldbach_conjecture` for a fixed even `n`,
parametric in the order the primes are visited: walk them, stop as soon as
`p > n // 2`, succeed as soon as `n - p` is prime. -/
def goldbachFindPair (primesList : List ℕ) : List ℕ → ℕ → Bool
  | [], _ => false
  | p :: rest, n =>
    if n / 2 < p then false
    else if (n - p) ∈ primesList then true
    else goldbachFindPair primesList rest n

/-- The loop of `verify_goldbach_conjecture(limit)` — all even `n` in
`[4, limit]` — with the primes visited in ascending order, as the spec's
Design Notes require.  The source's set-based iteration agrees with this at
small limits (at 100 the 25 primes sit ascending in a 128-slot table) but not
in general. -/
def verify_goldbach_ascending (limit : ℤ) : Bool :=
  (pyrange 4 (limit.toNat + 1) 2).all
    (fun n => goldbachFindPair (sieve_of_eratosthenes limit) (sieve_of_eratosthenes limit) n)

theorem goldbachFindPair_spec (primesList : List ℕ) (n : ℕ) :
    ∀ l : List ℕ, List.Sorted (· < ·) l →
      (goldbachFindPair primesList l n = true ↔
        ∃ p ∈ l, p ≤ n / 2 ∧ (n - p) ∈ primesList) := by
  intro l
  induction l with
  | nil =>
    intro _
    rw [show goldbachFindPair primesList [] n = false from rfl]
    simp
  | cons p rest ih =>
    intro hsorted
    have hrest : List.Sorted (· < ·) rest := hsorted.of_cons
    have hlt : ∀ q ∈ rest, p < q := fun q hq => (List.sorted_cons.mp hsorted).1 q hq
    show (if n / 2 < p then false
      else if (n - p) ∈ primesList then true
      else goldbachFindPair primesList rest n) = true ↔ _
    by_cases hp : n / 2 < p
    · rw [if_pos hp]
      simp only [Bool.false_eq_true, false_iff, not_exists]
      rintro q ⟨hq, hqle, -⟩
      rcases List.mem_cons.mp hq with rfl | hq'
      · omega
      · have := hlt q hq'
        omega
    · rw [if_neg hp]
      by_cases hmem : (n - p) ∈ primesList
      · rw [if_pos hmem]
        simp only [true_iff]
        exact ⟨p, List.mem_cons_self p rest, by omega, hmem⟩
      · rw [if_neg hmem, ih hrest]
        constructor
        · rintro ⟨q, hq, hqle, hqmem⟩
          exact ⟨q, List.mem_cons_of_mem p hq, hqle, hqmem⟩
        · rintro ⟨q, hq, hqle, hqmem⟩
          rcases List.mem_cons.mp hq with rfl | hq'
          · exact absurd hqmem hmem
          · exact ⟨q, hq', hqle, hqmem⟩

/-- The ascending-order Goldbach verifier is correct: it returns true iff
every even `n` in `[4, limit]` splits as a sum of two primes, and it returns
true at limit 100.  The source diverges from this only through its
set-iteration order at large limits, never through the arithmetic of the
loop. -/
theorem verify_goldbach_ascending_spec :
    (∀ limit : ℤ,
      (verify_goldbach_ascending limit = true ↔
        ∀ n : ℕ, 4 ≤ n → (n : ℤ) ≤ limit → 2 ∣ n →
          ∃ p q : ℕ, Nat.Prime p ∧ Nat.Prime q ∧ p + q = n)) ∧
    verify_goldbach_ascending 100 = true := by
  constructor
  · intro limit
    unfold verify_goldbach_ascending
    rw [List.all_eq_true]
    have hmemP : ∀ k : ℕ, k ∈ sieve_of_eratosthenes limit ↔ (Nat.Prime k ∧ (k : ℤ) ≤ limit) :=
      (sieve_of_eratosthenes_spec limit).1
    have hsorted : List.Sorted (· < ·) (sieve_of_eratosthenes limit) :=
      (sieve_of_eratosthenes_spec limit).2.1
    have hinner : ∀ n : ℕ, 4 ≤ n → (n : ℤ) ≤ limit →
        (goldbachFindPair (sieve_of_eratosthenes limit) (sieve_of_eratosthenes limit) n = true ↔
          ∃ p q : ℕ, Nat.Prime p ∧ Nat.Prime q ∧ p + q = n) := by
      intro n hn4 hnlim
      rw [goldbachFindPair_spec _ n _ hsorted]
      constructor
      · rintro ⟨p, hpmem, hple, hqmem⟩
        rcases (hmemP p).mp hpmem with ⟨hpp, -⟩
        rcases (hmemP (n - p)).mp hqmem with ⟨hqp, -⟩
        refine ⟨p, n - p, hpp, hqp, ?_⟩
        have : 2 * p ≤ n := by
          have := (Nat.le_div_iff_mul_le (show 0 < 2 by omega)).mp hple
          omega
        omega
      · rintro ⟨p, q, hpp, hqp, hsum⟩
        rcases Nat.le_total p q with hpq | hpq
        · refine ⟨p, (hmemP p).mpr ⟨hpp, by omega⟩, ?_, ?_⟩
          · rw [Nat.le_div_iff_mul_le (show 0 < 2 by omega)]
            omega
          · have : n - p = q := by omega
            rw [this]
            exact (hmemP q).mpr ⟨hqp, by omega⟩
        · refine ⟨q, (hmemP q).mpr ⟨hqp, by omega⟩, ?_, ?_⟩
          · rw [Nat.le_div_iff_mul_le (show 0 < 2 by omega)]
            omega
          · have : n - q = p := by omega
            rw [this]
            exact (hmemP p).mpr ⟨hpp, by omega⟩
    constructor
    · intro hall n hn4 hnlim hdvd
      have hnmem : n ∈ pyrange 4 (limit.toNat + 1) 2 := by
        rw [mem_pyrange (show 0 < 2 by omega)]
        omega
      exact (hinner n hn4 hnlim).mp (hall n hnmem)
    · intro hdec n hnmem
      rw [mem_pyrange (show 0 < 2 by omega)] at hnmem
      have hn4 : 4 ≤ n := hnmem.1
      have hnlim : (n : ℤ) ≤ limit := by omega
      have hdvd : 2 ∣ n := by omega
      exact (hinner n hn4 hnlim).mpr (hdec n hn4 hnlim hdvd)
  · decide

/-- Instantiating the ascending-order specification at limit 100 and n = 10
produces a concrete Goldbach decomposition. -/
theorem verify_goldbach_ascending_spec_witness :
    ∃ p q : ℕ, Nat.Prime p ∧ Nat.Prime q ∧ p + q = 10 :=
  (verify_goldbach_ascending_spec.1 100).mp verify_goldbach_ascending_spec.2
    10 (by omega) (by omega) (by omega)

/-- Witness for C2: the specification instantiated at limits 1, 2 and 9. -/
theorem sieve_of_eratosthenes_spec_witness :
    sieve_of_eratosthenes 1 = [] ∧ sieve_of_eratosthenes 2 = [2] ∧
      (5 ∈ sieve_of_eratosthenes 9 ↔ (Nat.Prime 5 ∧ (5 : ℤ) ≤ 9)) :=
  ⟨(sieve_of_eratosthenes_spec 1).2.2.1 (by omega),
   (sieve_of_eratosthenes_spec 2).2.2.2 rfl,
   (sieve_of_eratosthenes_spec 9).1 5⟩

/-!
## Arithmetic primitives from `core.py`
-/

/-- Python `%` (the sign of the result follows the divisor) is `Int.fmod`;
its remainder is strictly smaller than the divisor in absolute value. -/
theorem natAbs_fmod_lt (a : ℤ) {b : ℤ} (hb : b ≠ 0) :
    (a.fmod b).natAbs < b.natAbs := by
  rcases a with m | m <;> rcases b with n | n
  · -- ofNat / ofNat
    have hn : 0 < n := by
      rcases Nat.eq_zero_or_pos n with h | h
      · exact absurd (by rw [h]; rfl) hb
      · exact h
    rw [Int.ofNat_eq_coe, Int.ofNat_eq_coe, ← Int.ofNat_fmod]
    simpa using Nat.mod_lt m hn
  · -- ofNat / negSucc
    rcases m with - | m
    · show (Int.fmod 0 (Int.negSucc n)).natAbs < n + 1
      rw [Int.zero_fmod]
      simp
    · show (Int.subNatNat (m % (n + 1)) n).natAbs < n + 1
      rw [Int.subNatNat_eq_coe]
      have hlt : m % (n + 1) < n + 1 := Nat.mod_lt m (by omega)
      have heq : ((m % (n + 1) : ℕ) : ℤ) - (n : ℤ) = -(((n - m % (n + 1) : ℕ) : ℤ)) := by
        omega
      rw [heq, Int.natAbs_neg, Int.natAbs_ofNat]
      omega
  · -- negSucc / ofNat
    have hn : 0 < n := by
      rcases Nat.eq_zero_or_pos n with h | h
      · exact absurd (by rw [h]; rfl) hb
      · exact h
    show (Int.subNatNat n (m % n + 1)).natAbs < n
    rw [Int.subNatNat_eq_coe]
    have hlt : m % n < n := Nat.mod_lt m hn
    have heq : ((n : ℕ) : ℤ) - ((m % n + 1 : ℕ) : ℤ) = ((n - (m % n + 1) : ℕ) : ℤ) := by
      omega
    rw [heq, Int.natAbs_ofNat]
    omega
  · -- negSucc / negSucc
    show (-(((m + 1) % (n + 1) : ℕ) : ℤ)).natAbs < n + 1
    rw [Int.natAbs_neg, Int.natAbs_ofNat]
    exact Nat.mod_lt _ (by omega)

/-- The Euclidean loop of `core.gcd` with an explicit iteration bound:
`while b: a, b = b, a % b`, then the final `a` (Python `%` is floor-mod,
`Int.fmod`).  The bound only needs to exceed `|b|`, which strictly decreases
each iteration; it makes the recursion structural so the kernel can evaluate
it. -/
def gcdLoopGo : ℕ → ℤ → ℤ → ℤ
  | 0, a, _ => a
  | fuel + 1, a, b => if b = 0 then a else gcdLoopGo fuel b (a.fmod b)

def gcdLoop (a b : ℤ) : ℤ := gcdLoopGo (b.natAbs + 1) a b

theorem gcd_fmod_right (a b : ℤ) (hb : b ≠ 0) :
    Int.gcd b (a.fmod b) = Int.gcd a b := by
  have hm : a.fmod b = a - b * a.fdiv b := Int.fmod_def a b
  apply Nat.dvd_antisymm
  · apply Int.natCast_dvd_natCast.mp
    apply Int.dvd_gcd
    · have h1 : (↑(Int.gcd b (a.fmod b)) : ℤ) ∣ b := Int.gcd_dvd_left
      have h2 : (↑(Int.gcd b (a.fmod b)) : ℤ) ∣ a.fmod b := Int.gcd_dvd_right
      have h3 := dvd_add h2 (Dvd.dvd.mul_right h1 (a.fdiv b))
      rwa [Int.fmod_add_fdiv] at h3
    · exact Int.gcd_dvd_left
  · apply Int.natCast_dvd_natCast.mp
    apply Int.dvd_gcd
    · exact Int.gcd_dvd_right
    · have h1 : (↑(Int.gcd a b) : ℤ) ∣ a := Int.gcd_dvd_left
      have h2 : (↑(Int.gcd a b) : ℤ) ∣ b := Int.gcd_dvd_right
      rw [hm]
      exact dvd_sub h1 (Dvd.dvd.mul_right h2 _)

theorem gcdLoopGo_natAbs :
    ∀ (fuel : ℕ) (a b : ℤ), b.natAbs < fuel →
      (gcdLoopGo fuel a b).natAbs = Int.gcd a b := by
  intro fuel
  induction fuel with
  | zero =>
    intro a b h
    omega
  | succ fuel ih =>
    intro a b h
    by_cases hb : b = 0
    · subst hb
      show (gcdLoopGo (fuel + 1) a 0).natAbs = _
      rw [gcdLoopGo, if_pos rfl]
      simp [Int.gcd_zero_right]
    · rw [gcdLoopGo, if_neg hb]
      have hlt := natAbs_fmod_lt a hb
      rw [ih b (a.fmod b) (by omega)]
      exact gcd_fmod_right a b hb

theorem gcdLoop_natAbs (a b : ℤ) : (gcdLoop a b).natAbs = Int.gcd a b :=
  gcdLoopGo_natAbs (b.natAbs + 1) a b (by omega)

namespace EternalMath

/-- `core.gcd(a, b)`: ValueError when both arguments are zero, otherwise the
Euclidean loop followed by `abs`.  The `TypeError` branch for non-integer
arguments is outside the integer model. -/
def gcd (a b : ℤ) : Except PyErr ℤ :=
  if a = 0 ∧ b = 0 then Except.error PyErr.valueError
  else Except.ok |gcdLoop a b|

/-- `core.lcm(a, b)`: `abs(a * b) // gcd(a, b) if a and b else 0`. -/
def lcm (a b : ℤ) : Except PyErr ℤ :=
  if a ≠ 0 ∧ b ≠ 0 then
    match gcd a b with
    | Except.ok g => Except.ok (|a * b|.fdiv g)
    | Except.error e => Except.error e
  else Except.ok 0

theorem gcd_ok {a b : ℤ} (h : ¬(a = 0 ∧ b = 0)) :
    gcd a b = Except.ok (Int.gcd a b) := by
  unfold gcd
  rw [if_neg h]
  congr 1
  rw [Int.abs_eq_natAbs, gcdLoop_natAbs]

end EternalMath

/-- C9.  For all integers `a` and `b`, `lcm(a, b)` returns `0` when either
argument is zero and `abs(a * b) // gcd(a, b)` otherwise; the zero case is
special-cased before `gcd` is invoked, so the ValueError `gcd` raises on
`(0, 0)` is unreachable from `lcm` and `lcm` never raises a domain error. -/
theorem lcm_spec :
    ∀ a b : ℤ,
      EternalMath.lcm a b =
        Except.ok (if a = 0 ∨ b = 0 then 0 else (|a * b|).fdiv (Int.gcd a b)) ∧
      ∀ e : PyErr, EternalMath.lcm a b ≠ Except.error e := by
  intro a b
  by_cases h0 : a = 0 ∨ b = 0
  · have hcond : ¬(a ≠ 0 ∧ b ≠ 0) := by tauto
    unfold EternalMath.lcm
    rw [if_neg hcond, if_pos h0]
    exact ⟨rfl, fun e h => by exact absurd h (by simp)⟩
  · have hcond : a ≠ 0 ∧ b ≠ 0 := by tauto
    unfold EternalMath.lcm
    rw [EternalMath.gcd_ok (by tauto)]
    rw [if_pos hcond, if_neg h0]
    exact ⟨rfl, fun e h => by exact absurd h (by simp)⟩

/-!
## Prime factorization (`core.prime_factorization`) and Euler's totient
-/

/-- Trial-division loop of `core.prime_factorization`, merging its two nested
`while` loops: while `d * d <= n`, either divide out `d` (emitting it) or move
to `d + 1`; afterwards emit the remaining cofactor if it exceeds 1.  The outer
guard `2 ≤ d` is an invariant of the source (the loop starts at `d = 2` and
only increments `d`); it is made explicit here for totality. -/
def factorLoop (n d : ℕ) : List ℕ :=
  if 2 ≤ d then
    if d * d ≤ n then
      if n % d = 0 then d :: factorLoop (n / d) d
      else factorLoop n (d + 1)
    else if 1 < n then [n] else []
  else []
termination_by (n, n - d)
decreasing_by
  · apply Prod.Lex.left
    have h2 : 2 * d ≤ d * d := by nlinarith
    exact Nat.div_lt_self (by omega) (by omega)
  · apply Prod.Lex.right
    have h2 : 2 * d ≤ d * d := by nlinarith
    omega

theorem factorLoop_spec :
    ∀ n d, 2 ≤ d → 0 < n →
      (∀ k, 2 ≤ k → k < d → ¬(k ∣ n)) →
      ((factorLoop n d).prod = n ∧ ∀ x ∈ factorLoop n d, Nat.Prime x) := by
  intro n d
  induction n, d using factorLoop.induct with
  | case1 n d hd hddn hmod ih =>
    intro _ hn hinv
    have hdvd : d ∣ n := Nat.dvd_of_mod_eq_zero hmod
    rw [factorLoop, if_pos hd, if_pos hddn, if_pos hmod]
    have hdp : Nat.Prime d := by
      rw [Nat.prime_def_lt]
      refine ⟨hd, ?_⟩
      intro m hm hmd
      by_contra hm1
      have hm2 : 2 ≤ m := by
        rcases Nat.eq_zero_or_pos m with h | h
        · subst h
          have := Nat.eq_zero_of_zero_dvd hmd
          omega
        · omega
      exact hinv m hm2 hm (dvd_trans hmd hdvd)
    have hpos : 0 < n / d := Nat.div_pos (Nat.le_of_dvd hn hdvd) (by omega)
    have hinvq : ∀ k, 2 ≤ k → k < d → ¬(k ∣ n / d) := by
      intro k h2 hk hkdvd
      exact hinv k h2 hk (dvd_trans hkdvd (Nat.div_dvd_of_dvd hdvd))
    rcases ih hd hpos hinvq with ⟨ihprod, ihprime⟩
    constructor
    · rw [List.prod_cons, ihprod]
      exact Nat.mul_div_cancel' hdvd
    · intro x hx
      rcases List.mem_cons.mp hx with rfl | hx'
      · exact hdp
      · exact ihprime x hx'
  | case2 n d hd hddn hmod ih =>
    intro _ hn hinv
    rw [factorLoop, if_pos hd, if_pos hddn, if_neg hmod]
    apply ih (by omega) hn
    intro k h2 hk
    rcases Nat.lt_or_ge k d with hlt | hge
    · exact hinv k h2 hlt
    · have : k = d := by omega
      subst this
      exact fun hdvd => hmod (Nat.eq_zero_of_dvd_of_lt hdvd |> fun _ => by
        exact absurd (Nat.mod_eq_zero_of_dvd hdvd) hmod)
  | case3 n d hd hddn hn1 =>
    intro _ hn hinv
    rw [factorLoop, if_pos hd, if_neg hddn, if_pos hn1]
    constructor
    · simp
    · intro x hx
      rcases List.mem_singleton.mp hx with rfl
      rw [Nat.prime_def_lt]
      refine ⟨by omega, ?_⟩
      intro m hm hmd
      by_contra hm1
      have hm2 : 2 ≤ m := by
        rcases Nat.eq_zero_or_pos m with h | h
        · subst h
          have := Nat.eq_zero_of_zero_dvd hmd
          omega
        · omega
      -- the smaller of `m` and `x / m` is a divisor of `x` below `d`
      have hq : x / m ∣ x := Nat.div_dvd_of_dvd hmd
      have hq2 : 2 ≤ x / m := by
        have h1 : m * (x / m) = x := Nat.mul_div_cancel' hmd
        rcases Nat.lt_or_ge (x / m) 2 with h | h
        · interval_cases h' : x / m <;> omega
        · exact h
      have hmin : min m (x / m) * min m (x / m) ≤ x := by
        have h1 : m * (x / m) = x := Nat.mul_div_cancel' hmd
        rcases le_total m (x / m) with h | h
        · rw [min_eq_left h]
          calc m * m ≤ m * (x / m) := Nat.mul_le_mul_left m h
            _ = x := h1
        · rw [min_eq_right h]
          calc x / m * (x / m) ≤ m * (x / m) := Nat.mul_le_mul_right _ h
            _ = x := h1
      have hmind : min m (x / m) < d := by
        by_contra hc
        push_neg at hc
        have : d * d ≤ min m (x / m) * min m (x / m) :=
          Nat.mul_le_mul hc hc
        omega
      have hmindvd : min m (x / m) ∣ x := by
        rcases le_total m (x / m) with h | h
        · rw [min_eq_left h]; exact hmd
        · rw [min_eq_right h]; exact hq
      exact hinv (min m (x / m)) (by omega) hmind hmindvd
  | case4 n d hd hddn hn1 =>
    intro _ hn hinv
    rw [factorLoop, if_pos hd, if_neg hddn, if_neg hn1]
    constructor
    · have : n = 1 := by omega
      simp [this]
    · intro x hx
      exact absurd hx (List.not_mem_nil x)
  | case5 n d hd =>
    intro h2
    exact absurd h2 hd

theorem factorLoop_correct (n : ℕ) (h : 2 ≤ n) :
    (factorLoop n 2).prod = n ∧ ∀ x ∈ factorLoop n 2, Nat.Prime x :=
  factorLoop_spec n 2 le_rfl (by omega) (fun k h2 hlt => by omega)

theorem mem_factorLoop_iff (n : ℕ) (h : 2 ≤ n) :
    ∀ p, p ∈ factorLoop n 2 ↔ (Nat.Prime p ∧ p ∣ n) := by
  intro p
  rcases factorLoop_correct n h with ⟨hprod, hprime⟩
  constructor
  · intro hp
    exact ⟨hprime p hp, hprod ▸ List.dvd_prod hp⟩
  · rintro ⟨hp, hdvd⟩
    rw [← hprod] at hdvd
    rcases (Prime.dvd_prod_iff hp.prime).mp hdvd with ⟨x, hx, hpx⟩
    rcases ((hprime x hx).eq_one_or_self_of_dvd p hpx) with h1 | h1
    · exact absurd h1 hp.one_lt.ne'
    · rw [← h1] at hx
      exact hx

/-- `core.prime_factorization(n)`: ValueError below 2, else the trial-division
factor list (ascending, with multiplicity). -/
def prime_factorization (n : ℤ) : Except PyErr (List ℕ) :=
  if n < 2 then Except.error PyErr.valueError
  else Except.ok (factorLoop n.toNat 2)

/-- The loop of `euler_totient`: `result = result * (p - 1) // p` over a list
of distinct primes, starting from `result = n`.  All intermediate values are
non-negative, so Python integer arithmetic coincides with `ℕ` arithmetic. -/
def totientFold (n : ℕ) (l : List ℕ) : ℕ :=
  l.foldl (fun result p => result * (p - 1) / p) n

/-- `euler_totient(n)`: 1 for n = 1, otherwise the fold over the distinct
prime factors.  The Python set `set(prime_factorization(n))` is modelled as
the deduplicated factor list; `euler_totient_spec` shows every iteration
order gives the same value. -/
def euler_totient (n : ℤ) : Except PyErr ℤ :=
  if n = 1 then Except.ok 1
  else
    match prime_factorization n with
    | Except.error e => Except.error e
    | Except.ok factors => Except.ok ((totientFold n.toNat factors.dedup : ℕ) : ℤ)

theorem totientFold_value :
    ∀ (l : List ℕ) (m : ℕ), l.prod ∣ m → (∀ p ∈ l, 0 < p) →
      totientFold m l = (m / l.prod) * (l.map (fun p => p - 1)).prod := by
  intro l
  induction l with
  | nil =>
    intro m _ _
    simp [totientFold]
  | cons p rest ih =>
    intro m hdvd hpos
    have hp : 0 < p := hpos p (List.mem_cons_self p rest)
    have hR : 0 < rest.prod :=
      List.prod_pos (fun q hq => hpos q (List.mem_cons_of_mem p hq))
    rw [List.prod_cons] at hdvd
    obtain ⟨t, ht⟩ := hdvd
    have hpm : p ∣ m := ⟨rest.prod * t, by rw [ht]; ring⟩
    have hstep : m * (p - 1) / p = m / p * (p - 1) := by
      rw [Nat.mul_comm m (p - 1), Nat.mul_div_assoc (p - 1) hpm, Nat.mul_comm]
    have hmp : m / p = rest.prod * t := by
      rw [ht]
      have : p * rest.prod * t = p * (rest.prod * t) := by ring
      rw [this, Nat.mul_div_cancel_left _ hp]
    have hfold : totientFold m (p :: rest) = totientFold (m * (p - 1) / p) rest := rfl
    rw [hfold, ih (m * (p - 1) / p)
      (by rw [hstep, hmp]; exact ⟨t * (p - 1), by ring⟩)
      (fun q hq => hpos q (List.mem_cons_of_mem p hq))]
    rw [hstep, hmp]
    have h1 : rest.prod * t * (p - 1) / rest.prod = t * (p - 1) := by
      have : rest.prod * t * (p - 1) = rest.prod * (t * (p - 1)) := by ring
      rw [this, Nat.mul_div_cancel_left _ hR]
    rw [h1]
    have h2 : m / (p :: rest).prod = t := by
      rw [List.prod_cons, ht]
      have : p * rest.prod * t = p * rest.prod * t := rfl
      exact Nat.mul_div_cancel_left t (by positivity)
    rw [h2, List.map_cons, List.prod_cons]
    ring

theorem totientFold_step_dvd :
    ∀ (pre : List ℕ) (p : ℕ) (suf : List ℕ) (m : ℕ),
      (pre ++ p :: suf).prod ∣ m → (∀ q ∈ pre ++ p :: suf, 0 < q) →
      p ∣ totientFold m pre * (p - 1) := by
  intro pre p suf m hdvd hpos
  have hpre : pre.prod ∣ m := by
    refine dvd_trans ?_ hdvd
    rw [List.prod_append]
    exact Dvd.intro _ rfl
  have hprepos : ∀ q ∈ pre, 0 < q := fun q hq => hpos q (List.mem_append_left _ hq)
  rw [totientFold_value pre m hpre hprepos]
  apply Dvd.dvd.mul_right
  apply Dvd.dvd.mul_right
  -- p divides m / pre.prod
  rw [List.prod_append, List.prod_cons] at hdvd
  obtain ⟨t, ht⟩ := hdvd
  have hRpos : 0 < pre.prod := List.prod_pos hprepos
  have : m / pre.prod = p * (suf.prod * t) := by
    rw [ht]
    have he : pre.prod * (p * suf.prod) * t = pre.prod * (p * (suf.prod * t)) := by ring
    rw [he, Nat.mul_div_cancel_left _ hRpos]
  rw [this]
  exact Dvd.intro _ rfl

/-- Euler's totient in the shape computed by `euler_totient`:
`n` divided by the radical, times the product of `p - 1`. -/
theorem totient_radical_formula (n : ℕ) (hn : n ≠ 0) :
    Nat.totient n = (n / (∏ p ∈ n.primeFactors, p)) * (∏ p ∈ n.primeFactors, (p - 1)) := by
  rw [Nat.totient_eq_prod_factorization hn]
  rw [Finsupp.prod, Nat.support_factorization]
  rw [Finset.prod_mul_distrib]
  have hkey : (∏ p ∈ n.primeFactors, p) *
      (∏ p ∈ n.primeFactors, p ^ (n.factorization p - 1)) = n := by
    rw [← Finset.prod_mul_distrib]
    have hstep : ∀ p ∈ n.primeFactors,
        p * p ^ (n.factorization p - 1) = p ^ (n.factorization p) := by
      intro p hp
      have h1 : 0 < n.factorization p :=
        (Nat.prime_of_mem_primeFactors hp).factorization_pos_of_dvd hn
          (Nat.dvd_of_mem_primeFactors hp)
      have h2 : n.factorization p - 1 + 1 = n.factorization p := by omega
      rw [← pow_succ']
      rw [h2]
    rw [Finset.prod_congr rfl hstep]
    have hself := Nat.factorization_prod_pow_eq_self hn
    rw [Finsupp.prod, Nat.support_factorization] at hself
    exact hself
  have hpos : 0 < ∏ p ∈ n.primeFactors, p :=
    Finset.prod_pos (fun p hp => Nat.pos_of_mem_primeFactors hp)
  have hdiv : n / (∏ p ∈ n.primeFactors, p) =
      ∏ p ∈ n.primeFactors, p ^ (n.factorization p - 1) :=
    Nat.div_eq_of_eq_mul_right hpos hkey.symm
  rw [hdiv]

/-- The totient fold computes `φ(n)` for every enumeration without repetition
of the distinct prime factors of `n` — CPython's set iteration order is
irrelevant, and every interleaved division is exact. -/
theorem totientFold_totient (n : ℕ) (hn : 0 < n) :
    ∀ l : List ℕ, l.Nodup → l.toFinset = n.primeFactors →
      totientFold n l = Nat.totient n := by
  intro l hnodup hset
  have hmem : ∀ p, p ∈ l ↔ p ∈ n.primeFactors := by
    intro p
    rw [← hset, List.mem_toFinset]
  have hprodl : l.prod = ∏ p ∈ n.primeFactors, p := by
    rw [← hset]
    rw [List.prod_toFinset _ hnodup]
    simp
  have hmapl : (l.map (fun p => p - 1)).prod = ∏ p ∈ n.primeFactors, (p - 1) := by
    rw [← hset]
    rw [List.prod_toFinset _ hnodup]
  have hdvd : l.prod ∣ n := by
    rw [hprodl]
    exact Nat.prod_primeFactors_dvd n
  have hpos : ∀ p ∈ l, 0 < p := by
    intro p hp
    exact Nat.pos_of_mem_primeFactors ((hmem p).mp hp)
  rw [totientFold_value l n hdvd hpos, hprodl, hmapl,
    totient_radical_formula n (by omega)]

/-- C7.  For every `n ≥ 1`, `euler_totient(n)` equals the count of integers in
`[1, n]` coprime to `n`; the fold over the distinct prime factors produces
`φ(n)` for every iteration order of the set, each intermediate product
`result * (p - 1)` being exactly divisible by `p`; and
`totient(1) = 1`, `totient(p) = p - 1` for prime `p`, `totient(12) = 4`. -/
theorem euler_totient_spec :
    (∀ n : ℤ, 1 ≤ n →
      (euler_totient n = Except.ok ((Nat.totient n.toNat : ℕ) : ℤ) ∧
        ∀ l : List ℕ, l.Nodup → l.toFinset = n.toNat.primeFactors →
          (totientFold n.toNat l = Nat.totient n.toNat ∧
            ∀ pre p suf, l = pre ++ p :: suf →
              p ∣ totientFold n.toNat pre * (p - 1)))) ∧
    euler_totient 1 = Except.ok 1 ∧
    (∀ p : ℕ, Nat.Prime p → euler_totient (p : ℤ) = Except.ok (((p - 1 : ℕ) : ℤ))) ∧
    euler_totient 12 = Except.ok 4 := by
  have hmain : ∀ n : ℤ, 1 ≤ n →
      (euler_totient n = Except.ok ((Nat.totient n.toNat : ℕ) : ℤ) ∧
        ∀ l : List ℕ, l.Nodup → l.toFinset = n.toNat.primeFactors →
          (totientFold n.toNat l = Nat.totient n.toNat ∧
            ∀ pre p suf, l = pre ++ p :: suf →
              p ∣ totientFold n.toNat pre * (p - 1))) := by
    intro n hn
    have horders : ∀ l : List ℕ, l.Nodup → l.toFinset = n.toNat.primeFactors →
        (totientFold n.toNat l = Nat.totient n.toNat ∧
          ∀ pre p suf, l = pre ++ p :: suf →
            p ∣ totientFold n.toNat pre * (p - 1)) := by
      intro l hnodup hset
      have hpos : (0 : ℕ) < n.toNat := by omega
      refine ⟨totientFold_totient n.toNat hpos l hnodup hset, ?_⟩
      intro pre p suf hsplit
      have hmem : ∀ q, q ∈ l ↔ q ∈ n.toNat.primeFactors := by
        intro q
        rw [← hset, List.mem_toFinset]
      apply totientFold_step_dvd pre p suf n.toNat
      · rw [← hsplit]
        have h1 : l.prod = ∏ q ∈ n.toNat.primeFactors, q := by
          rw [← hset, List.prod_toFinset _ hnodup]
          simp
        rw [h1]
        exact Nat.prod_primeFactors_dvd _
      · intro q hq
        rw [← hsplit] at hq
        exact Nat.pos_of_mem_primeFactors ((hmem q).mp hq)
    by_cases h1 : n = 1
    · subst h1
      refine ⟨?_, horders⟩
      show Except.ok 1 = _
      norm_num
    · have h2 : 2 ≤ n := by omega
      have h2n : 2 ≤ n.toNat := by omega
      have heval : euler_totient n =
          Except.ok ((totientFold n.toNat (factorLoop n.toNat 2).dedup : ℕ) : ℤ) := by
        unfold euler_totient prime_factorization
        rw [if_neg h1, if_neg (by omega)]
      refine ⟨?_, horders⟩
      rw [heval]
      congr 1
      congr 1
      apply (horders (factorLoop n.toNat 2).dedup (List.nodup_dedup _) ?_).1
      ext p
      rw [List.mem_toFinset, List.mem_dedup, mem_factorLoop_iff n.toNat h2n p,
        Nat.mem_primeFactors]
      constructor
      · rintro ⟨hp, hd⟩
        exact ⟨hp, hd, by omega⟩
      · rintro ⟨hp, hd, -⟩
        exact ⟨hp, hd⟩
  refine ⟨hmain, ?_, ?_, ?_⟩
  · show Except.ok 1 = _
    rfl
  · intro p hp
    have h := (hmain (p : ℤ) (by exact_mod_cast Nat.one_le_iff_ne_zero.mpr hp.pos.ne')).1
    rw [h]
    congr 2
    rw [Int.toNat_natCast]
    exact Nat.totient_prime hp
  · have h := (hmain 12 (by omega)).1
    rw [h]
    norm_num
    decide

/-- Helper for the C7 witness: the distinct prime factors of 12. -/
theorem primeFactors_twelve : (12 : ℕ).primeFactors = {2, 3} := by
  have h12 : (12 : ℕ) = 2 ^ 2 * 3 := by norm_num
  rw [h12, Nat.primeFactors_mul (by norm_num) (by norm_num),
    Nat.primeFactors_pow _ (by norm_num),
    Nat.Prime.primeFactors (by norm_num), Nat.Prime.primeFactors (by norm_num)]
  rfl

/-- Witness for C7: the specification instantiated at `n = 12` with the
iteration order `[3, 2]`, split at the step for `p = 2`. -/
theorem euler_totient_spec_witness :
    euler_totient 12 = Except.ok ((Nat.totient 12 : ℕ) : ℤ) ∧
      totientFold 12 [3, 2] = Nat.totient 12 ∧
      2 ∣ totientFold 12 [3] * (2 - 1) := by
  have h := euler_totient_spec.1 12 (by omega)
  have hset : ([3, 2] : List ℕ).toFinset = (12 : ℤ).toNat.primeFactors := by
    rw [show ((12 : ℤ).toNat) = (12 : ℕ) from rfl, primeFactors_twelve]
    decide
  have h2 := h.2 [3, 2] (by decide) hset
  exact ⟨h.1, h2.1, h2.2 [3] 2 [] rfl⟩

/-- C10.  For every integer `n ≤ 0`, `euler_totient(n)` raises ValueError,
propagated from `prime_factorization`'s rejection of `n < 2`: the totient
contract is realised only for `n ≥ 1`, out-of-domain inputs fail with a
domain error. -/
theorem euler_totient_err :
    ∀ n : ℤ, n ≤ 0 →
      euler_totient n = Except.error PyErr.valueError ∧
      prime_factorization n = Except.error PyErr.valueError := by
  intro n hn
  have hpf : prime_factorization n = Except.error PyErr.valueError := by
    unfold prime_factorization
    rw [if_pos (by omega)]
  refine ⟨?_, hpf⟩
  unfold euler_totient
  rw [if_neg (by omega), hpf]

/-- Witness for C10: the failure at `n = 0`. -/
theorem euler_totient_err_witness :
    euler_totient 0 = Except.error PyErr.valueError ∧
      prime_factorization 0 = Except.error PyErr.valueError :=
  euler_totient_err 0 (by omega)

/-!
## Perfect numbers (`is_perfect_number` and `_is_prime`)
-/

/-- The power-of-two stripping loop of `is_perfect_number`:
`while temp % 2 == 0: temp //= 2; power_of_2 += 1`, returning
`(temp, power_of_2)`.  The `n ≠ 0` guard makes the function total; the caller
only reaches the loop with `n ≥ 2`. -/
def strip2 (n : ℕ) : ℕ × ℕ :=
  if h : n % 2 = 0 ∧ n ≠ 0 then
    ((strip2 (n / 2)).1, (strip2 (n / 2)).2 + 1)
  else (n, 0)
termination_by n
decreasing_by exact Nat.div_lt_self (by omega) (by omega)

theorem strip2_spec : ∀ n : ℕ, 0 < n →
    2 ^ (strip2 n).2 * (strip2 n).1 = n ∧ (strip2 n).1 % 2 = 1 := by
  intro n
  induction n using strip2.induct with
  | case1 n h ih =>
    intro hn
    rcases h with ⟨heven, hne⟩
    have hpos : 0 < n / 2 := Nat.div_pos (by omega) (by omega)
    rcases ih hpos with ⟨ih1, ih2⟩
    rw [strip2, dif_pos ⟨heven, hne⟩]
    refine ⟨?_, ih2⟩
    show 2 ^ ((strip2 (n / 2)).2 + 1) * (strip2 (n / 2)).1 = n
    rw [pow_succ]
    have : 2 ^ (strip2 (n / 2)).2 * 2 * (strip2 (n / 2)).1 =
        2 * (2 ^ (strip2 (n / 2)).2 * (strip2 (n / 2)).1) := by ring
    rw [this, ih1]
    omega
  | case2 n h =>
    intro hn
    rw [strip2, dif_neg h]
    have : ¬(n % 2 = 0) ∨ n = 0 := by tauto
    rcases this with hodd | h0
    · exact ⟨by simpa using rfl, by omega⟩
    · omega

/-- `_is_prime(n)`: trial division by odd numbers after handling 2. -/
def isPrimeAux (n : ℕ) : Bool :=
  if n < 2 then false
  else if n = 2 then true
  else if n % 2 = 0 then false
  else (pyrange 3 (pysqrt n + 1) 2).all (fun i => decide (n % i ≠ 0))

theorem isPrimeAux_iff (n : ℕ) : isPrimeAux n = true ↔ Nat.Prime n := by
  unfold isPrimeAux
  by_cases h2 : n < 2
  · rw [if_pos h2]
    simp only [Bool.false_eq_true, false_iff]
    intro hp
    have := hp.two_le
    omega
  · rw [if_neg h2]
    by_cases he2 : n = 2
    · subst he2
      simp [Nat.prime_two]
    · rw [if_neg he2]
      by_cases heven : n % 2 = 0
      · rw [if_pos heven]
        simp only [Bool.false_eq_true, false_iff]
        intro hp
        have := (Nat.Prime.eq_one_or_self_of_dvd hp 2 (Nat.dvd_of_mod_eq_zero heven))
        omega
      · rw [if_neg heven]
        rw [List.all_eq_true]
        constructor
        · intro hall
          rw [Nat.prime_def_le_sqrt]
          refine ⟨by omega, ?_⟩
          intro m hm2 hmsqrt hdvd
          rcases Nat.even_or_odd m with hmeven | hmodd
          · rcases hmeven with ⟨t, ht⟩
            have h2n : 2 ∣ n := dvd_trans ⟨t, by omega⟩ hdvd
            exact heven (Nat.mod_eq_zero_of_dvd h2n)
          · have hm3 : 3 ≤ m := by
              rcases hmodd with ⟨t, ht⟩
              omega
            have hmmem : m ∈ pyrange 3 (pysqrt n + 1) 2 := by
              rw [mem_pyrange (by omega : (0:ℕ) < 2), pysqrt_eq]
              rcases hmodd with ⟨t, ht⟩
              refine ⟨hm3, by omega, ⟨t - 1, by omega⟩⟩
            have := of_decide_eq_true (hall m hmmem)
            exact this (Nat.mod_eq_zero_of_dvd hdvd)
        · intro hp i hi
          rw [mem_pyrange (by omega : (0:ℕ) < 2), pysqrt_eq] at hi
          rcases hi with ⟨hi3, hisqrt, -⟩
          apply decide_eq_true
          intro hmod
          have hdvd := Nat.dvd_of_mod_eq_zero hmod
          rcases (Nat.Prime.eq_one_or_self_of_dvd hp i hdvd) with h1 | h1
          · omega
          · subst h1
            have hs := Nat.sqrt_le i
            have hle : i ≤ Nat.sqrt i := by omega
            have : i * i ≤ i :=
              le_trans (Nat.mul_le_mul hle hle) hs
            nlinarith

/-- Euclid's direction of the perfect-number theorem, in the shape the
Mersenne shortcut of `is_perfect_number` needs: if `2 ^ (k+1) - 1` is prime
then the proper divisors of `2 ^ k * (2 ^ (k+1) - 1)` sum to the number. -/
theorem perfect_of_mersenne (k : ℕ) (pr : Nat.Prime (mersenne (k + 1))) :
    ∑ d ∈ (2 ^ k * mersenne (k + 1)).properDivisors, d = 2 ^ k * mersenne (k + 1) := by
  have hmodd : Odd (mersenne (k + 1)) := by
    refine ⟨2 ^ k - 1, ?_⟩
    have h1 : 2 ^ (k + 1) = 2 * 2 ^ k := by rw [pow_succ]; ring
    have h2 : 1 ≤ 2 ^ k := Nat.one_le_two_pow
    show 2 ^ (k + 1) - 1 = _
    omega
  have hpos : 0 < 2 ^ k * mersenne (k + 1) :=
    Nat.mul_pos (Nat.pos_pow_of_pos k (by omega)) pr.pos
  have hsum : ∑ d ∈ (2 ^ k * mersenne (k + 1)).divisors, d = 2 * (2 ^ k * mersenne (k + 1)) := by
    have hcop : Nat.Coprime (2 ^ k) (mersenne (k + 1)) :=
      Nat.Coprime.pow_left k (Nat.coprime_two_left.mpr hmodd)
    rw [← ArithmeticFunction.sigma_one_apply,
      ArithmeticFunction.isMultiplicative_sigma.map_mul_of_coprime hcop,
      ArithmeticFunction.sigma_one_apply, ArithmeticFunction.sigma_one_apply]
    have h1 : ∑ d ∈ ((2 : ℕ) ^ k).divisors, d = 2 ^ (k + 1) - 1 := by
      rw [Nat.sum_divisors_prime_pow Nat.prime_two]
      have := Nat.geomSum_eq (le_refl 2) (k + 1)
      simpa using this
    have h2 : ∑ d ∈ (mersenne (k + 1)).divisors, d = mersenne (k + 1) + 1 := by
      rw [pr.divisors, Finset.sum_pair pr.one_lt.ne]
      omega
    rw [h1, h2]
    have hm1 : mersenne (k + 1) + 1 = 2 ^ (k + 1) := by
      have h2 : 1 ≤ 2 ^ (k + 1) := Nat.one_le_two_pow
      show 2 ^ (k + 1) - 1 + 1 = 2 ^ (k + 1)
      omega
    rw [hm1]
    show (mersenne (k + 1)) * 2 ^ (k + 1) = _
    rw [pow_succ]
    ring
  have hps := @Nat.sum_divisors_eq_sum_properDivisors_add_self (2 ^ k * mersenne (k + 1))
  omega

/-- The square-root pairing of the divisor loop of `is_perfect_number`:
`1` plus the sum of `i + n/i` contributions over `i` in `[2, sqrt n]`
equals the proper-divisor sum. -/
theorem pairSum_properDivisors (n : ℕ) (hn : 2 ≤ n) :
    1 + ∑ i ∈ Finset.Ico 2 (Nat.sqrt n + 1),
        (if n % i = 0 then i + (if i ≠ n / i then n / i else 0) else 0) =
      ∑ d ∈ n.properDivisors, d := by
  have hn0 : n ≠ 0 := by omega
  set s := Nat.sqrt n with hs
  set A := n.divisors.filter (fun d => d ≤ s) with hA
  set B := n.divisors.filter (fun d => ¬ d ≤ s) with hB
  have hsq : s * s ≤ n := Nat.sqrt_le n
  have hsqlt : n < (s + 1) * (s + 1) := Nat.lt_succ_sqrt n
  have hs1 : 1 ≤ s := Nat.le_sqrt.mpr (by omega)
  -- B sums to the "complement" contributions of A
  have hBsum : ∑ d ∈ B, d = ∑ d ∈ A.filter (fun d => d ≠ n / d), n / d := by
    refine Finset.sum_nbij' (fun d => n / d) (fun d => n / d) ?_ ?_ ?_ ?_ ?_
    · intro b hb
      rw [hB, Finset.mem_filter, Nat.mem_divisors] at hb
      rcases hb with ⟨⟨hdvd, -⟩, hgt⟩
      push_neg at hgt
      have hbpos : 0 < b := by omega
      have hle : n / b ≤ s := by
        by_contra hc
        push_neg at hc
        have h1 : b * (n / b) = n := Nat.mul_div_cancel' hdvd
        have : (s + 1) * (s + 1) ≤ b * (n / b) := Nat.mul_le_mul hgt hc
        omega
      show n / b ∈ Finset.filter (fun d => d ≠ n / d) A
      rw [Finset.mem_filter, hA, Finset.mem_filter, Nat.mem_divisors]
      refine ⟨⟨⟨Nat.div_dvd_of_dvd hdvd, hn0⟩, hle⟩, ?_⟩
      show n / b ≠ n / (n / b)
      rw [Nat.div_div_self hdvd hn0]
      omega
    · intro a ha
      rw [Finset.mem_filter, hA, Finset.mem_filter, Nat.mem_divisors] at ha
      rcases ha with ⟨⟨⟨hdvd, -⟩, hle⟩, hne⟩
      have hne2 : a ≠ n / a := hne
      have hapos : 0 < a := Nat.pos_of_dvd_of_pos hdvd (by omega)
      show n / a ∈ B
      rw [hB, Finset.mem_filter, Nat.mem_divisors]
      refine ⟨⟨Nat.div_dvd_of_dvd hdvd, hn0⟩, ?_⟩
      show ¬ n / a ≤ s
      intro hc
      have h1 : a * (n / a) = n := Nat.mul_div_cancel' hdvd
      have h2 : n ≤ s * s := by
        calc n = a * (n / a) := h1.symm
          _ ≤ s * s := Nat.mul_le_mul hle hc
      have hnss : n = s * s := by omega
      rcases Nat.lt_or_ge a s with hlt | hge
      · have hq : 0 < n / a := by
          rcases Nat.eq_zero_or_pos (n / a) with h | h
          · rw [h] at h1; omega
          · exact h
        have hstep1 : a * (n / a) ≤ a * s := Nat.mul_le_mul_left a hc
        have hstep2 : a * s < s * s := by
          have h0s : 0 < s := by omega
          exact Nat.mul_lt_mul_of_lt_of_le hlt (le_refl s) h0s
        omega
      · have ha_eq : a = s := by omega
        apply hne2
        rw [ha_eq] at h1 ⊢
        have : n / s = s := by
          have hspos : 0 < s := by omega
          nlinarith [h1]
        omega
    · intro b hb
      rw [hB, Finset.mem_filter, Nat.mem_divisors] at hb
      show n / (n / b) = b
      exact Nat.div_div_self hb.1.1 hn0
    · intro a ha
      rw [Finset.mem_filter, hA, Finset.mem_filter, Nat.mem_divisors] at ha
      show n / (n / a) = a
      exact Nat.div_div_self ha.1.1.1 hn0
    · intro b hb
      rw [hB, Finset.mem_filter, Nat.mem_divisors] at hb
      show b = n / (n / b)
      exact (Nat.div_div_self hb.1.1 hn0).symm
  -- assemble: the divisor sum splits at the square root
  have hsplit : ∑ d ∈ A, d + ∑ d ∈ B, d = ∑ d ∈ n.divisors, d := by
    rw [hA, hB]
    exact Finset.sum_filter_add_sum_filter_not _ _ _
  have hite : ∑ d ∈ A.filter (fun d => d ≠ n / d), n / d =
      ∑ d ∈ A, (if d ≠ n / d then n / d else 0) :=
    Finset.sum_filter _ _
  have hcontrib : ∑ d ∈ A, (d + (if d ≠ n / d then n / d else 0)) =
      ∑ d ∈ n.divisors, d := by
    rw [Finset.sum_add_distrib, ← hite, ← hBsum]
    exact hsplit
  -- pull out the divisor 1
  have h1A : (1 : ℕ) ∈ A := by
    rw [hA, Finset.mem_filter, Nat.mem_divisors]
    exact ⟨⟨one_dvd n, hn0⟩, by omega⟩
  have h1c : (1 : ℕ) + (if (1 : ℕ) ≠ n / 1 then n / 1 else 0) = 1 + n := by
    rw [Nat.div_one]
    rw [if_pos (by omega)]
  have herase : A.erase 1 =
      (Finset.Ico 2 (s + 1)).filter (fun i => n % i = 0) := by
    ext i
    rw [Finset.mem_erase, hA, Finset.mem_filter, Finset.mem_filter,
      Finset.mem_Ico, Nat.mem_divisors]
    constructor
    · rintro ⟨hne1, ⟨hdvd, -⟩, hle⟩
      have : 0 < i := Nat.pos_of_dvd_of_pos hdvd (by omega)
      exact ⟨⟨by omega, by omega⟩, Nat.mod_eq_zero_of_dvd hdvd⟩
    · rintro ⟨⟨h2i, hilt⟩, hmod⟩
      exact ⟨by omega, ⟨Nat.dvd_of_mod_eq_zero hmod, hn0⟩, by omega⟩
  have hpull := Finset.add_sum_erase A
    (fun d => d + (if d ≠ n / d then n / d else 0)) h1A
  simp only at hpull
  -- turn the Ico sum with the outer `if` into the sum over the filtered set
  have hIco : ∑ i ∈ Finset.Ico 2 (s + 1),
      (if n % i = 0 then i + (if i ≠ n / i then n / i else 0) else 0) =
      ∑ i ∈ (Finset.Ico 2 (s + 1)).filter (fun i => n % i = 0),
        (i + (if i ≠ n / i then n / i else 0)) :=
    (Finset.sum_filter _ _).symm
  have hfinal := @Nat.sum_divisors_eq_sum_properDivisors_add_self n
  rw [hIco, ← herase]
  rw [h1c] at hpull
  omega

theorem listsum_Ico (f : ℕ → ℕ) (a b : ℕ) :
    ((pyrange a b 1).map f).sum = ∑ i ∈ Finset.Ico a b, f i := by
  rw [pyrange_one_count, Nat.Ico_eq_range']
  show _ = Multiset.sum (Multiset.map f ↑(List.range' a (b - a)))
  rw [Multiset.map_coe, Multiset.sum_coe]

/-- The divisor-sum loop of `is_perfect_number`: add `i` and its complement
`n // i` for each divisor `i`, with the early `return False` once the running
sum exceeds `n`, and the final `divisor_sum == n` comparison. -/
def perfectLoop (n : ℕ) : List ℕ → ℕ → Bool
  | [], acc => decide (acc = n)
  | i :: rest, acc =>
    if n % i = 0 then
      if n < acc + i + (if i ≠ n / i then n / i else 0) then false
      else perfectLoop n rest (acc + i + (if i ≠ n / i then n / i else 0))
    else perfectLoop n rest acc

/-- The early exit of the divisor-sum loop never changes the final verdict:
the loop decides whether the starting accumulator plus all contributions
equals `n`. -/
theorem perfectLoop_spec (n : ℕ) :
    ∀ (l : List ℕ) (acc : ℕ),
      perfectLoop n l acc =
        decide (acc + (l.map (fun i =>
          if n % i = 0 then i + (if i ≠ n / i then n / i else 0) else 0)).sum = n) := by
  intro l
  induction l with
  | nil =>
    intro acc
    show decide (acc = n) = _
    simp
  | cons i rest ih =>
    intro acc
    show (if n % i = 0 then
        if n < acc + i + (if i ≠ n / i then n / i else 0) then false
        else perfectLoop n rest (acc + i + (if i ≠ n / i then n / i else 0))
      else perfectLoop n rest acc) = _
    by_cases hmod : n % i = 0
    · rw [if_pos hmod, List.map_cons, List.sum_cons, if_pos hmod]
      by_cases hover : n < acc + i + (if i ≠ n / i then n / i else 0)
      · rw [if_pos hover]
        have hne : ¬(acc + ((i + (if i ≠ n / i then n / i else 0)) +
            (rest.map (fun i =>
              if n % i = 0 then i + (if i ≠ n / i then n / i else 0) else 0)).sum) = n) := by
          omega
        exact (decide_eq_false hne).symm
      · rw [if_neg hover, ih]
        apply decide_eq_decide.mpr
        constructor <;> intro h <;> omega
    · rw [if_neg hmod, List.map_cons, List.sum_cons, if_neg hmod, ih]
      apply decide_eq_decide.mpr
      constructor <;> intro h <;> omega

/-- `is_perfect_number(n)`: false below 2, then the Mersenne shortcut for even
numbers, then the square-root divisor-sum loop. -/
def is_perfect_number (n : ℤ) : Bool :=
  if n ≤ 1 then false
  else if n.toNat % 2 = 0 ∧ 0 < (strip2 n.toNat).2 ∧
      (strip2 n.toNat).1 = 2 ^ ((strip2 n.toNat).2 + 1) - 1 ∧
      isPrimeAux (strip2 n.toNat).1 = true then true
  else perfectLoop n.toNat (pyrange 2 (pysqrt n.toNat + 1) 1) 1

/-- C6.  For every integer `n`, `is_perfect_number(n)` is true iff `n ≥ 2` and
the proper divisors of `n` sum to `n`; in particular it is false for all
`n ≤ 1`, and the Mersenne shortcut never disagrees with the brute-force
proper-divisor summation. -/
theorem is_perfect_number_spec :
    ∀ n : ℤ, is_perfect_number n = true ↔
      (2 ≤ n ∧ ∑ d ∈ n.toNat.properDivisors, d = n.toNat) := by
  intro n
  by_cases hn1 : n ≤ 1
  · unfold is_perfect_number
    rw [if_pos hn1]
    simp only [Bool.false_eq_true, false_iff, not_and]
    intro h
    omega
  · have hm2 : 2 ≤ n.toNat := by omega
    set m := n.toNat with hm
    have hloop : perfectLoop m (pyrange 2 (pysqrt m + 1) 1) 1 =
        decide (∑ d ∈ m.properDivisors, d = m) := by
      rw [perfectLoop_spec, listsum_Ico]
      apply decide_eq_decide.mpr
      have hpair := pairSum_properDivisors m hm2
      rw [pysqrt_eq]
      rw [← hpair]
    unfold is_perfect_number
    rw [if_neg hn1]
    by_cases hsc : m % 2 = 0 ∧ 0 < (strip2 m).2 ∧
        (strip2 m).1 = 2 ^ ((strip2 m).2 + 1) - 1 ∧
        isPrimeAux (strip2 m).1 = true
    · rw [if_pos hsc]
      simp only [true_iff]
      refine ⟨by omega, ?_⟩
      rcases hsc with ⟨heven, hk, ht, hprime⟩
      rcases strip2_spec m (by omega) with ⟨hfact, hodd⟩
      have hprime2 : Nat.Prime (mersenne ((strip2 m).2 + 1)) := by
        rw [show mersenne ((strip2 m).2 + 1) = 2 ^ ((strip2 m).2 + 1) - 1 from rfl, ← ht]
        exact (isPrimeAux_iff _).mp hprime
      have hmEq : m = 2 ^ (strip2 m).2 * mersenne ((strip2 m).2 + 1) := by
        rw [show mersenne ((strip2 m).2 + 1) = 2 ^ ((strip2 m).2 + 1) - 1 from rfl, ← ht]
        exact hfact.symm
      rw [hmEq]
      exact perfect_of_mersenne (strip2 m).2 hprime2
    · rw [if_neg hsc, hloop]
      constructor
      · intro h
        exact ⟨by omega, of_decide_eq_true h⟩
      · rintro ⟨-, h⟩
        exact decide_eq_true h

/-!
## Chinese Remainder Theorem (`NumberTheoryUtils.chinese_remainder_theorem`)
-/

/-- Python three-argument `pow(b, -1, m)`: the inverse of `b` modulo `m`,
reduced by Python `%` into the sign range of `m`; ValueError when `m = 0` or
`b` is not invertible.  The canonical representative below `|m|` is found by
brute-force search, which returns exactly the value CPython computes. -/
def pyPowInv (b m : ℤ) : Except PyErr ℤ :=
  if m = 0 then Except.error PyErr.valueError
  else
    match (List.range m.natAbs).find?
        (fun (v : ℕ) => decide ((b * (v : ℤ)) % (m.natAbs : ℤ) = 1 % (m.natAbs : ℤ))) with
    | some v => Except.ok (Int.fmod (v : ℤ) m)
    | none => Except.error PyErr.valueError

/-- One pairwise-coprimality check of `chinese_remainder_theorem`:
`if gcd(moduli[i], moduli[j]) != 1: raise ValueError` (a ValueError coming out
of `gcd(0, 0)` propagates unchanged). -/
def checkPair (a b : ℤ) : Except PyErr Unit :=
  match EternalMath.gcd a b with
  | Except.error e => Except.error e
  | Except.ok g => if g ≠ 1 then Except.error PyErr.valueError else Except.ok ()

/-- The `O(k²)` double loop over index pairs `i < j` of the moduli. -/
def crtChecks (moduli : List ℤ) : Except PyErr Unit :=
  (pyrange 0 moduli.length 1).foldlM
    (fun _ i =>
      (pyrange (i + 1) moduli.length 1).foldlM
        (fun _ j => checkPair (moduli.getD i 0) (moduli.getD j 0)) ())
    ()

/-- The accumulation loop of `chinese_remainder_theorem`:
`total += r * p * pow(p, -1, m)` with `p = prod // m`; `prod // 0` raises
ZeroDivisionError. -/
def crtSum (P : ℤ) : List (ℤ × ℤ) → ℤ → Except PyErr ℤ
  | [], total => Except.ok total
  | (r, m) :: rest, total =>
    if m = 0 then Except.error PyErr.zeroDivisionError
    else
      match pyPowInv (P.fdiv m) m with
      | Except.error e => Except.error e
      | Except.ok inv => crtSum P rest (total + r * (P.fdiv m) * inv)

/-- `NumberTheoryUtils.chinese_remainder_theorem(remainders, moduli)`. -/
def chinese_remainder_theorem (remainders moduli : List ℤ) : Except PyErr ℤ :=
  if remainders.length ≠ moduli.length then Except.error PyErr.valueError
  else
    match crtChecks moduli with
    | Except.error e => Except.error e
    | Except.ok _ =>
      match crtSum moduli.prod (remainders.zip moduli) 0 with
      | Except.error e => Except.error e
      | Except.ok total => Except.ok (total.fmod moduli.prod)

/-- The value returned by a successful `pyPowInv` (projection used in proofs). -/
def invV (b m : ℤ) : ℤ :=
  match (List.range m.natAbs).find?
      (fun (v : ℕ) => decide ((b * (v : ℤ)) % (m.natAbs : ℤ) = 1 % (m.natAbs : ℤ))) with
  | some v => Int.fmod (v : ℤ) m
  | none => 0

theorem invV_spec {b m : ℤ} (hm : 1 ≤ m) (hcop : Int.gcd b m = 1) :
    pyPowInv b m = Except.ok (invV b m) ∧
      0 ≤ invV b m ∧ invV b m < m ∧ m ∣ (b * invV b m - 1) := by
  have hm0 : m ≠ 0 := by omega
  have habs : ((m.natAbs : ℕ) : ℤ) = m := Int.natAbs_of_nonneg (by omega)
  -- a valid inverse below `m` exists, by Bézout
  have hex : ∃ x ∈ List.range m.natAbs,
      (fun (v : ℕ) => decide ((b * (v : ℤ)) % (m.natAbs : ℤ) = 1 % (m.natAbs : ℤ))) x = true := by
    have hbezout : (1 : ℤ) = b * Int.gcdA b m + m * Int.gcdB b m := by
      have := Int.gcd_eq_gcd_ab b m
      rw [hcop] at this
      exact_mod_cast this
    refine ⟨(Int.gcdA b m % m).toNat, ?_, ?_⟩
    · rw [List.mem_range]
      have h1 : 0 ≤ Int.gcdA b m % m := Int.emod_nonneg _ hm0
      have h2 : Int.gcdA b m % m < m := Int.emod_lt_of_pos _ (by omega)
      omega
    · apply decide_eq_true
      rw [habs]
      have hch : ((Int.gcdA b m % m).toNat : ℤ) = Int.gcdA b m % m := by
        have h1 : 0 ≤ Int.gcdA b m % m := Int.emod_nonneg _ hm0
        omega
      rw [hch]
      have h3 : b * (Int.gcdA b m % m) % m = b * Int.gcdA b m % m := by
        rw [Int.mul_emod, Int.emod_emod_of_dvd _ (dvd_refl m), ← Int.mul_emod]
      rw [h3]
      have h4 : b * Int.gcdA b m = 1 - m * Int.gcdB b m := by omega
      rw [h4, Int.sub_emod, Int.mul_emod_right]
      simp
  rcases List.find?_isSome.mpr hex with hsome
  rcases Option.isSome_iff_exists.mp hsome with ⟨v, hv⟩
  have hpv := List.find?_some hv
  have hvmem := List.mem_of_find?_eq_some hv
  rw [List.mem_range] at hvmem
  have hvlt : (v : ℤ) < m := by omega
  have hv0 : (0 : ℤ) ≤ (v : ℤ) := by omega
  have hfmod : Int.fmod (v : ℤ) m = (v : ℤ) := Int.fmod_eq_of_lt hv0 hvlt
  have hres : pyPowInv b m = Except.ok (invV b m) ∧ invV b m = (v : ℤ) := by
    unfold pyPowInv invV
    rw [if_neg hm0, hv]
    exact ⟨rfl, hfmod⟩
  refine ⟨hres.1, ?_, ?_, ?_⟩
  · rw [hres.2]; exact hv0
  · rw [hres.2]; exact hvlt
  · rw [hres.2]
    have := of_decide_eq_true hpv
    rw [habs] at this
    apply Int.dvd_of_emod_eq_zero
    rw [Int.sub_emod, this, ← Int.sub_emod]
    simp

theorem gcd_one_list_prod {m : ℤ} :
    ∀ l : List ℤ, (∀ x ∈ l, Int.gcd x m = 1) → Int.gcd l.prod m = 1 := by
  intro l
  induction l with
  | nil =>
    intro _
    simp [Int.one_gcd]
  | cons x rest ih =>
    intro h
    rw [List.prod_cons]
    rw [← Int.isCoprime_iff_gcd_eq_one]
    apply IsCoprime.mul_left
    · rw [Int.isCoprime_iff_gcd_eq_one]
      exact h x (List.mem_cons_self x rest)
    · rw [Int.isCoprime_iff_gcd_eq_one]
      exact ih (fun y hy => h y (List.mem_cons_of_mem x hy))

theorem foldlM_unit_ok {α : Type} (f : Unit → α → Except PyErr Unit) :
    ∀ l : List α, (∀ x ∈ l, f () x = Except.ok ()) → l.foldlM f () = Except.ok () := by
  intro l
  induction l with
  | nil => intro _; rfl
  | cons x rest ih =>
    intro h
    rw [List.foldlM_cons, h x (List.mem_cons_self x rest)]
    show rest.foldlM f () = Except.ok ()
    exact ih (fun y hy => h y (List.mem_cons_of_mem x hy))

theorem crtChecks_ok (moduli : List ℤ)
    (hpos : ∀ m ∈ moduli, 1 ≤ m)
    (hpw : List.Pairwise (fun a b => Int.gcd a b = 1) moduli) :
    crtChecks moduli = Except.ok () := by
  unfold crtChecks
  apply foldlM_unit_ok
  intro i hi
  rw [mem_pyrange_one] at hi
  apply foldlM_unit_ok
  intro j hj
  rw [mem_pyrange_one] at hj
  have hiL : i < moduli.length := by omega
  have hjL : j < moduli.length := by omega
  rw [List.getD_eq_getElem moduli 0 hiL, List.getD_eq_getElem moduli 0 hjL]
  have hgcd : Int.gcd moduli[i] moduli[j] = 1 :=
    List.pairwise_iff_getElem.mp hpw i j hiL hjL (by omega)
  have hi1 : 1 ≤ moduli[i] := hpos _ (moduli.getElem_mem hiL)
  unfold checkPair
  rw [EternalMath.gcd_ok (by intro ⟨h1, h2⟩; omega)]
  rw [hgcd]
  simp

theorem crtSum_eval (P : ℤ) :
    ∀ (l : List (ℤ × ℤ)) (total : ℤ),
      (∀ p ∈ l, 1 ≤ p.2 ∧ Int.gcd (P.fdiv p.2) p.2 = 1) →
      crtSum P l total = Except.ok (total +
        (l.map (fun p => p.1 * (P.fdiv p.2) * invV (P.fdiv p.2) p.2)).sum) := by
  intro l
  induction l with
  | nil =>
    intro total _
    show Except.ok total = _
    simp
  | cons p rest ih =>
    intro total h
    rcases p with ⟨r, m⟩
    rcases h (r, m) (List.mem_cons_self _ _) with ⟨hm1, hmcop⟩
    show (if m = 0 then Except.error PyErr.zeroDivisionError
      else match pyPowInv (P.fdiv m) m with
        | Except.error e => Except.error e
        | Except.ok inv => crtSum P rest (total + r * (P.fdiv m) * inv)) = _
    rw [if_neg (by omega)]
    rw [(invV_spec hm1 hmcop).1]
    show crtSum P rest (total + r * (P.fdiv m) * invV (P.fdiv m) m) = _
    rw [ih _ (fun q hq => h q (List.mem_cons_of_mem _ hq))]
    rw [List.map_cons, List.sum_cons]
    congr 1
    ring

/-- Splitting the modulus list at an index: the product divided by the entry
is the product of the remaining entries. -/
theorem crt_fdiv_eq (ms : List ℤ) (hpos : ∀ m ∈ ms, 1 ≤ m)
    (j : ℕ) (hj : j < ms.length) :
    ms.prod.fdiv ms[j] = (ms.take j).prod * (ms.drop (j + 1)).prod := by
  have hsplit : ms.take j ++ ms[j] :: ms.drop (j + 1) = ms := by
    rw [← List.drop_eq_getElem_cons hj, List.take_append_drop]
  have hprod : ms.prod = ms[j] * ((ms.take j).prod * (ms.drop (j + 1)).prod) := by
    conv_lhs => rw [← hsplit]
    rw [List.prod_append, List.prod_cons]
    ring
  have hj1 : 1 ≤ ms[j] := hpos _ (ms.getElem_mem hj)
  have hdvd : ms[j] ∣ ms.prod := ⟨_, hprod⟩
  rw [Int.fdiv_eq_ediv_of_dvd hdvd, hprod, Int.mul_ediv_cancel_left _ (by omega)]

theorem crt_cop (ms : List ℤ) (hpos : ∀ m ∈ ms, 1 ≤ m)
    (hpw : List.Pairwise (fun a b => Int.gcd a b = 1) ms)
    (j : ℕ) (hj : j < ms.length) :
    Int.gcd (ms.prod.fdiv ms[j]) ms[j] = 1 := by
  rw [crt_fdiv_eq ms hpos j hj]
  have hsplit : ms.take j ++ ms[j] :: ms.drop (j + 1) = ms := by
    rw [← List.drop_eq_getElem_cons hj, List.take_append_drop]
  rw [← hsplit] at hpw
  rw [List.pairwise_append] at hpw
  rcases hpw with ⟨-, hcons, hcross⟩
  rw [List.pairwise_cons] at hcons
  have hall : ∀ x ∈ ms.take j ++ ms.drop (j + 1), Int.gcd x ms[j] = 1 := by
    intro x hx
    rcases List.mem_append.mp hx with hxl | hxr
    · exact hcross x hxl ms[j] (List.mem_cons_self _ _)
    · rw [Int.gcd_comm]
      exact hcons.1 x hxr
  have := gcd_one_list_prod (ms.take j ++ ms.drop (j + 1)) hall
  rwa [List.prod_append] at this

theorem crt_dvd_other (ms : List ℤ) (hpos : ∀ m ∈ ms, 1 ≤ m)
    (i j : ℕ) (hi : i < ms.length) (hj : j < ms.length) (hne : i ≠ j) :
    ms[i] ∣ ms.prod.fdiv ms[j] := by
  rw [crt_fdiv_eq ms hpos j hj]
  have hmem : ms[i] ∈ ms.take j ∨ ms[i] ∈ ms.drop (j + 1) := by
    rcases Nat.lt_or_ge i j with hlt | hge
    · left
      have hlen : i < (ms.take j).length := by
        rw [List.length_take]
        omega
      have : (ms.take j)[i] = ms[i] := List.getElem_take ms
      rw [← this]
      exact (ms.take j).getElem_mem hlen
    · right
      have hgt : j < i := by omega
      have hlen : i - j - 1 < (ms.drop (j + 1)).length := by
        rw [List.length_drop]
        omega
      have h2 : (ms.drop (j + 1))[i - j - 1]? = ms[j + 1 + (i - j - 1)]? :=
        List.getElem?_drop ms (j + 1) (i - j - 1)
      have heq : j + 1 + (i - j - 1) = i := by omega
      rw [heq] at h2
      rw [List.getElem?_eq_getElem hi] at h2
      exact List.getElem?_mem h2
  rcases hmem with h | h
  · exact Dvd.dvd.mul_right (List.dvd_prod h) _
  · exact Dvd.dvd.mul_left (List.dvd_prod h) _

theorem crt_dvd_take_drop (ms : List ℤ) (hpos : ∀ m ∈ ms, 1 ≤ m)
    (i : ℕ) (hi : i < ms.length) :
    ∀ x ∈ ms.take i ++ ms.drop (i + 1), ms[i] ∣ ms.prod.fdiv x := by
  intro x hx
  rcases List.mem_append.mp hx with h | h
  · rcases List.mem_iff_getElem.mp h with ⟨k, hk, hkx⟩
    have hki : k < i := by
      rw [List.length_take] at hk
      omega
    have hkL : k < ms.length := by omega
    have hms : ms[k] = x := by
      rw [← hkx]
      exact (List.getElem_take ms).symm
    rw [← hms]
    exact crt_dvd_other ms hpos i k hi hkL (by omega)
  · rcases List.mem_iff_getElem.mp h with ⟨k, hk, hkx⟩
    have hq : ms[i + 1 + k]? = some x := by
      rw [← List.getElem?_drop ms (i + 1) k]
      rw [List.getElem?_eq_getElem hk]
      rw [hkx]
    rcases List.getElem?_eq_some_iff.mp hq with ⟨hlt, heq⟩
    rw [← heq]
    exact crt_dvd_other ms hpos i (i + 1 + k) hi hlt (by omega)

theorem crt_term_congr (rs ms : List ℤ) (hlen : rs.length = ms.length)
    (hpos : ∀ m ∈ ms, 1 ≤ m)
    (hpw : List.Pairwise (fun a b => Int.gcd a b = 1) ms)
    (i : ℕ) (hi : i < ms.length) :
    ms[i] ∣ (((rs.zip ms).map
        (fun p => p.1 * (ms.prod.fdiv p.2) * invV (ms.prod.fdiv p.2) p.2)).sum
      - rs.getD i 0) := by
  have hiR : i < rs.length := by omega
  rw [List.getD_eq_getElem rs 0 hiR]
  have hrs : rs.take i ++ rs[i] :: rs.drop (i + 1) = rs := by
    rw [← List.drop_eq_getElem_cons hiR, List.take_append_drop]
  have hms : ms.take i ++ ms[i] :: ms.drop (i + 1) = ms := by
    rw [← List.drop_eq_getElem_cons hi, List.take_append_drop]
  have hzip : rs.zip ms =
      (rs.take i).zip (ms.take i) ++
        (rs[i], ms[i]) :: ((rs.drop (i + 1)).zip (ms.drop (i + 1))) := by
    conv_lhs => rw [← hrs, ← hms]
    rw [List.zip_append (by rw [List.length_take, List.length_take]; omega)]
    rfl
  rw [hzip, List.map_append, List.sum_append, List.map_cons, List.sum_cons]
  have hA : ms[i] ∣ (((rs.take i).zip (ms.take i)).map
      (fun p => p.1 * (ms.prod.fdiv p.2) * invV (ms.prod.fdiv p.2) p.2)).sum := by
    apply List.dvd_sum
    intro x hx
    rcases List.mem_map.mp hx with ⟨p, hp, rfl⟩
    have hp2 : p.2 ∈ ms.take i := (List.of_mem_zip hp).2
    have hdvd : ms[i] ∣ ms.prod.fdiv p.2 :=
      crt_dvd_take_drop ms hpos i hi p.2 (List.mem_append_left _ hp2)
    have he : p.1 * (ms.prod.fdiv p.2) * invV (ms.prod.fdiv p.2) p.2 =
        (ms.prod.fdiv p.2) * (p.1 * invV (ms.prod.fdiv p.2) p.2) := by ring
    rw [he]
    exact Dvd.dvd.mul_right hdvd _
  have hB : ms[i] ∣ (((rs.drop (i + 1)).zip (ms.drop (i + 1))).map
      (fun p => p.1 * (ms.prod.fdiv p.2) * invV (ms.prod.fdiv p.2) p.2)).sum := by
    apply List.dvd_sum
    intro x hx
    rcases List.mem_map.mp hx with ⟨p, hp, rfl⟩
    have hp2 : p.2 ∈ ms.drop (i + 1) := (List.of_mem_zip hp).2
    have hdvd : ms[i] ∣ ms.prod.fdiv p.2 :=
      crt_dvd_take_drop ms hpos i hi p.2 (List.mem_append_right _ hp2)
    have he : p.1 * (ms.prod.fdiv p.2) * invV (ms.prod.fdiv p.2) p.2 =
        (ms.prod.fdiv p.2) * (p.1 * invV (ms.prod.fdiv p.2) p.2) := by ring
    rw [he]
    exact Dvd.dvd.mul_right hdvd _
  have hC : ms[i] ∣ (rs[i] * (ms.prod.fdiv ms[i]) * invV (ms.prod.fdiv ms[i]) ms[i]
      - rs[i]) := by
    have hinv := (invV_spec (hpos _ (ms.getElem_mem hi))
      (crt_cop ms hpos hpw i hi)).2.2.2
    rcases hinv with ⟨t, ht⟩
    refine ⟨rs[i] * t, ?_⟩
    have he : rs[i] * (ms.prod.fdiv ms[i]) * invV (ms.prod.fdiv ms[i]) ms[i] - rs[i] =
        rs[i] * ((ms.prod.fdiv ms[i]) * invV (ms.prod.fdiv ms[i]) ms[i] - 1) := by
      ring
    rw [he, ht]
    ring
  have hsplit : (((rs.take i).zip (ms.take i)).map
        (fun p => p.1 * (ms.prod.fdiv p.2) * invV (ms.prod.fdiv p.2) p.2)).sum +
      (rs[i] * (ms.prod.fdiv ms[i]) * invV (ms.prod.fdiv ms[i]) ms[i] +
        (((rs.drop (i + 1)).zip (ms.drop (i + 1))).map
          (fun p => p.1 * (ms.prod.fdiv p.2) * invV (ms.prod.fdiv p.2) p.2)).sum) -
      rs[i] =
      (((rs.take i).zip (ms.take i)).map
        (fun p => p.1 * (ms.prod.fdiv p.2) * invV (ms.prod.fdiv p.2) p.2)).sum +
      (((rs.drop (i + 1)).zip (ms.drop (i + 1))).map
        (fun p => p.1 * (ms.prod.fdiv p.2) * invV (ms.prod.fdiv p.2) p.2)).sum +
      (rs[i] * (ms.prod.fdiv ms[i]) * invV (ms.prod.fdiv ms[i]) ms[i] - rs[i]) := by
    ring
  rw [hsplit]
  exact dvd_add (dvd_add hA hB) hC

theorem int_one_le_list_prod :
    ∀ l : List ℤ, (∀ x ∈ l, 1 ≤ x) → 1 ≤ l.prod := by
  intro l
  induction l with
  | nil => intro _; simp
  | cons x rest ih =>
    intro h
    rw [List.prod_cons]
    have h1 : 1 ≤ x := h x (List.mem_cons_self _ _)
    have h2 : 1 ≤ rest.prod := ih (fun y hy => h y (List.mem_cons_of_mem x hy))
    nlinarith

theorem foldlM_unit_cases {α : Type} (f : Unit → α → Except PyErr Unit)
    (hf : ∀ x, f () x = Except.ok () ∨ f () x = Except.error PyErr.valueError) :
    ∀ l : List α,
      ((∀ x ∈ l, f () x = Except.ok ()) ∧ l.foldlM f () = Except.ok ()) ∨
        l.foldlM f () = Except.error PyErr.valueError := by
  intro l
  induction l with
  | nil =>
    left
    refine ⟨?_, rfl⟩
    intro x hx
    cases hx
  | cons x rest ih =>
    rcases hf x with hx | hx
    · rcases ih with ⟨hall, hok⟩ | herr
      · left
        refine ⟨?_, ?_⟩
        · intro y hy
          rcases List.mem_cons.mp hy with rfl | hy2
          · exact hx
          · exact hall y hy2
        · rw [List.foldlM_cons, hx]
          show rest.foldlM f () = Except.ok ()
          exact hok
      · right
        rw [List.foldlM_cons, hx]
        show rest.foldlM f () = Except.error PyErr.valueError
        exact herr
    · right
      rw [List.foldlM_cons, hx]
      rfl

theorem checkPair_cases (a b : ℤ) :
    checkPair a b = Except.ok () ∨ checkPair a b = Except.error PyErr.valueError := by
  unfold checkPair EternalMath.gcd
  by_cases h : a = 0 ∧ b = 0
  · rw [if_pos h]
    right
    rfl
  · rw [if_neg h]
    by_cases hg : |gcdLoop a b| ≠ 1
    · right
      show (if |gcdLoop a b| ≠ 1 then _ else _) = _
      rw [if_pos hg]
    · left
      show (if |gcdLoop a b| ≠ 1 then _ else _) = _
      rw [if_neg hg]

theorem checkPair_ok {a b : ℤ} (h : ¬(a = 0 ∧ b = 0))
    (hok : checkPair a b = Except.ok ()) : Int.gcd a b = 1 := by
  unfold checkPair at hok
  rw [EternalMath.gcd_ok h] at hok
  replace hok : (if ((Int.gcd a b : ℤ)) ≠ 1 then Except.error PyErr.valueError
      else Except.ok ()) = Except.ok () := hok
  by_contra hne
  rw [if_pos (by exact_mod_cast hne)] at hok
  cases hok

theorem crtChecks_cases (ms : List ℤ) :
    crtChecks ms = Except.ok () ∨ crtChecks ms = Except.error PyErr.valueError := by
  unfold crtChecks
  have houter : ∀ i : ℕ,
      (pyrange (i + 1) ms.length 1).foldlM
          (fun _ j => checkPair (ms.getD i 0) (ms.getD j 0)) () = Except.ok () ∨
        (pyrange (i + 1) ms.length 1).foldlM
          (fun _ j => checkPair (ms.getD i 0) (ms.getD j 0)) () =
          Except.error PyErr.valueError := by
    intro i
    exact (foldlM_unit_cases _ (fun j => checkPair_cases _ _) _).imp And.right id
  exact (foldlM_unit_cases
    (fun _ i => (pyrange (i + 1) ms.length 1).foldlM
      (fun _ j => checkPair (ms.getD i 0) (ms.getD j 0)) ())
    houter _).imp And.right id

theorem crtChecks_pairwise (ms : List ℤ) (hpos : ∀ m ∈ ms, 1 ≤ m)
    (h : crtChecks ms = Except.ok ()) :
    List.Pairwise (fun a b => Int.gcd a b = 1) ms := by
  rw [List.pairwise_iff_getElem]
  intro i j hi hj hij
  unfold crtChecks at h
  have houter : ∀ i : ℕ,
      (pyrange (i + 1) ms.length 1).foldlM
          (fun _ j => checkPair (ms.getD i 0) (ms.getD j 0)) () = Except.ok () ∨
        (pyrange (i + 1) ms.length 1).foldlM
          (fun _ j => checkPair (ms.getD i 0) (ms.getD j 0)) () =
          Except.error PyErr.valueError := by
    intro i
    exact (foldlM_unit_cases _ (fun j => checkPair_cases _ _) _).imp And.right id
  rcases foldlM_unit_cases
      (fun _ i => (pyrange (i + 1) ms.length 1).foldlM
        (fun _ j => checkPair (ms.getD i 0) (ms.getD j 0)) ())
      houter (pyrange 0 ms.length 1) with ⟨hall, -⟩ | herr
  · have hiMem : i ∈ pyrange 0 ms.length 1 := mem_pyrange_one.mpr (by omega)
    have hinner := hall i hiMem
    rcases foldlM_unit_cases (fun _ j => checkPair (ms.getD i 0) (ms.getD j 0))
        (fun j => checkPair_cases (ms.getD i 0) (ms.getD j 0))
        (pyrange (i + 1) ms.length 1) with ⟨hall2, -⟩ | herr2
    · have hjMem : j ∈ pyrange (i + 1) ms.length 1 := mem_pyrange_one.mpr (by omega)
      have hpair := hall2 j hjMem
      rw [List.getD_eq_getElem ms 0 hi, List.getD_eq_getElem ms 0 hj] at hpair
      have hi1 : 1 ≤ ms[i] := hpos _ (ms.getElem_mem hi)
      exact checkPair_ok (by intro ⟨h1, _⟩; omega) hpair
    · rw [herr2] at hinner
      cases hinner
  · rw [herr] at h
    cases h

theorem crtChecks_err (ms : List ℤ) (hpos : ∀ m ∈ ms, 1 ≤ m)
    (hnp : ¬ List.Pairwise (fun a b => Int.gcd a b = 1) ms) :
    crtChecks ms = Except.error PyErr.valueError := by
  rcases crtChecks_cases ms with hok | herr
  · exact absurd (crtChecks_pairwise ms hpos hok) hnp
  · exact herr

/-- C5 (corrected): `chinese_remainder_theorem` raises ValueError when the two
lists differ in length and, for positive moduli, when some pair of moduli has
gcd ≠ 1; for equal-length lists whose moduli are pairwise coprime AND all at
least 1 it returns the integer x with 0 ≤ x < product(moduli) and
x ≡ remainders[i] (mod moduli[i]) for every index i; in particular
crt([2,3],[3,5]) = 8. The positivity requirement is the correction: it is
absent from the original claim but necessary (see the counterexample). -/
theorem chinese_remainder_theorem_spec :
    (∀ rs ms : List ℤ,
      (rs.length ≠ ms.length →
        chinese_remainder_theorem rs ms = Except.error PyErr.valueError) ∧
      ((∀ m ∈ ms, 1 ≤ m) → ¬ List.Pairwise (fun a b => Int.gcd a b = 1) ms →
        rs.length = ms.length →
        chinese_remainder_theorem rs ms = Except.error PyErr.valueError) ∧
      (rs.length = ms.length → (∀ m ∈ ms, 1 ≤ m) →
        List.Pairwise (fun a b => Int.gcd a b = 1) ms →
        ∃ x, chinese_remainder_theorem rs ms = Except.ok x ∧
          0 ≤ x ∧ x < ms.prod ∧
          ∀ i, i < ms.length → ms.getD i 0 ∣ (x - rs.getD i 0))) ∧
    chinese_remainder_theorem [2, 3] [3, 5] = Except.ok 8 := by
  constructor
  · intro rs ms
    refine ⟨?_, ?_, ?_⟩
    · intro hne
      unfold chinese_remainder_theorem
      rw [if_pos hne]
    · intro hpos hnp hlen
      unfold chinese_remainder_theorem
      rw [if_neg (by omega), crtChecks_err ms hpos hnp]
    · intro hlen hpos hpw
      have hP1 : 1 ≤ ms.prod := int_one_le_list_prod ms hpos
      have hP0 : ms.prod ≠ 0 := by omega
      have hcond : ∀ p ∈ rs.zip ms, 1 ≤ p.2 ∧ Int.gcd (ms.prod.fdiv p.2) p.2 = 1 := by
        intro p hp
        have hp2 : p.2 ∈ ms := (List.of_mem_zip hp).2
        refine ⟨hpos _ hp2, ?_⟩
        rcases List.mem_iff_getElem.mp hp2 with ⟨j, hj, hj2⟩
        rw [← hj2]
        exact crt_cop ms hpos hpw j hj
      obtain ⟨S, hS⟩ : ∃ S, ((rs.zip ms).map
          (fun p => p.1 * (ms.prod.fdiv p.2) * invV (ms.prod.fdiv p.2) p.2)).sum = S :=
        ⟨_, rfl⟩
      have hsum := crtSum_eval ms.prod (rs.zip ms) 0 hcond
      rw [hS, zero_add] at hsum
      have hfm : S.fmod ms.prod = S % ms.prod := Int.fmod_eq_emod _ (by omega)
      refine ⟨S.fmod ms.prod, ?_, ?_, ?_, ?_⟩
      · unfold chinese_remainder_theorem
        rw [if_neg (by omega), crtChecks_ok ms hpos hpw]
        show (match crtSum ms.prod (rs.zip ms) 0 with
          | Except.error e => Except.error e
          | Except.ok total => Except.ok (total.fmod ms.prod)) =
          Except.ok (S.fmod ms.prod)
        rw [hsum]
      · rw [hfm]
        exact Int.emod_nonneg _ hP0
      · rw [hfm]
        exact Int.emod_lt_of_pos _ (by omega)
      · intro i hi
        rw [List.getD_eq_getElem ms 0 hi]
        have hterm := crt_term_congr rs ms hlen hpos hpw i hi
        rw [hS] at hterm
        have hPd : ms[i] ∣ ms.prod := List.dvd_prod (ms.getElem_mem hi)
        have h2 : ms[i] ∣ (S - rs.getD i 0) - ms.prod * (S / ms.prod) :=
          dvd_sub hterm (Dvd.dvd.mul_right hPd _)
        have he : S.fmod ms.prod - rs.getD i 0 =
            (S - rs.getD i 0) - ms.prod * (S / ms.prod) := by
          rw [hfm, Int.emod_def]
          ring
        rw [he]
        exact h2
  · decide

/-- Counterexample to the original C5 claim: `crt([0], [0])` has equal-length
inputs and a vacuously pairwise-coprime modulus list, yet raises
ZeroDivisionError instead of returning an integer; and `crt([0,0], [-3,5])`
(equal lengths, pairwise-coprime moduli) returns 0, which violates the claimed
bound 0 ≤ x < product(moduli) because the product is -15. -/
theorem chinese_remainder_theorem_counterexample :
    chinese_remainder_theorem [0] [0] = Except.error PyErr.zeroDivisionError ∧
    List.Pairwise (fun a b => Int.gcd a b = 1) ([0] : List ℤ) ∧
    chinese_remainder_theorem [0, 0] [-3, 5] = Except.ok 0 ∧
    List.Pairwise (fun a b => Int.gcd a b = 1) ([-3, 5] : List ℤ) ∧
    ¬ (0 : ℤ) < ([(-3 : ℤ), 5]).prod := by
  decide

/-- Witness: the corrected CRT theorem applied at remainders [2,3] and
moduli [3,5]. -/
theorem chinese_remainder_theorem_spec_witness :
    ∃ x, chinese_remainder_theorem [2, 3] [3, 5] = Except.ok x ∧
      0 ≤ x ∧ x < ([(3 : ℤ), 5]).prod ∧
      ∀ i, i < ([(3 : ℤ), 5] : List ℤ).length →
        (([(3 : ℤ), 5] : List ℤ).getD i 0) ∣ (x - ([(2 : ℤ), 3] : List ℤ).getD i 0) :=
  (chinese_remainder_theorem_spec.1 [2, 3] [3, 5]).2.2 (by decide) (by decide) (by decide)

/-! ### The proof-object model (`proofs.py`)

`number_theory.py` imports `Axiom`, `LogicalStatement`, `Proof`, `ProofStep`
and `Theorem` from `eternal_math.proofs`, but that module is absent from
`src/`. The definitions below are therefore modelled from the spec
(architecture §3 and state machine §4.8) rather than translated from source
code. -/

/-- Modelled from the spec: a statement carries a description string and its
identity is that description; `Axiom` and `LogicalStatement` are statement
variants distinguished only by role, so a single structure represents both. -/
structure Statement where
  description : String
deriving DecidableEq

/-- Modelled from the spec: a proof step is a directed inference with a list
of premise statements, one conclusion statement, a named rule and a
justification string. -/
structure ProofStep where
  premises : List Statement
  conclusion : Statement
  rule : String
  justification : String
deriving DecidableEq

/-- Modelled from the spec: a proof owns an ordered list of axioms and an
ordered list of steps, and is associated with exactly one theorem (recorded
here by the theorem's description, since statement identity is the
description). -/
structure Proof where
  theoremDescription : String
  axioms : List Statement
  steps : List ProofStep
deriving DecidableEq

/-- Modelled from the spec: a theorem has a description, a proven flag and an
owned proof. -/
structure Theorem where
  description : String
  proven : Bool
  proof : Proof
deriving DecidableEq

/-- Modelled from the spec (§4.8): walk the step sequence, checking that every
premise of every step occurs, by identity, among the axioms or among the
conclusions of strictly earlier steps. -/
def verifyFrom (axs : List Statement) : List ProofStep → List Statement → Bool
  | [], _ => true
  | step :: rest, established =>
    step.premises.all (fun p => (axs ++ established).contains p) &&
      verifyFrom axs rest (established ++ [step.conclusion])

/-- Modelled from the spec (§4.8): `Proof.verify()` returns true iff all steps
pass the premise-resolution walk and at least structural completeness holds —
the associated theorem's statement is actually concluded by some step. -/
def Proof.verify (pf : Proof) : Bool :=
  verifyFrom pf.axioms pf.steps [] &&
    (pf.steps.map (fun s => s.conclusion)).contains ⟨pf.theoremDescription⟩

/-- Modelled from the spec (§8): removing one proof step, simulated by index. -/
def removeStep (pf : Proof) (i : ℕ) : Proof :=
  { pf with steps := pf.steps.eraseIdx i }

/-- The theorem description built in `create_fundamental_theorem_of_arithmetic`
(adjacent Python string literals concatenate). -/
def ftaDescription : String :=
  "Every integer greater than 1 either is prime itself or is the product of prime numbers, and this product is unique up to the order of factors."

def ftaAx1 : Statement :=
  ⟨"Every integer n > 1 has a smallest divisor d > 1"⟩

def ftaAx2 : Statement :=
  ⟨"If d is the smallest divisor of n > 1, then d is prime"⟩

def ftaAx3 : Statement :=
  ⟨"If n = p1^a1 * p2^a2 * ... * pk^ak and n = q1^b1 * q2^b2 * ... * qm^bm where all p_i and q_j are prime, then k = m and the multisets \x7bp1, p2, ..., pk\x7d and \x7bq1, q2, ..., qm\x7d are identical"⟩

def existenceStmt : Statement :=
  ⟨"Every integer n > 1 can be expressed as a product of primes"⟩

def uniquenessStmt : Statement :=
  ⟨"The prime factorization of any integer n > 1 is unique up to order"⟩

def ftaStep1 : ProofStep :=
  ⟨[ftaAx1],
   ⟨"Let n > 1 be arbitrary. Either n is prime or n has a proper divisor"⟩,
   "Case Analysis",
   "By definition, n is prime if it has no proper divisors, otherwise it has proper divisors"⟩

def ftaStep2 : ProofStep :=
  ⟨[ftaStep1.conclusion, ftaAx2],
   ⟨"If n is composite, then n = d * (n/d) where d is the smallest prime divisor of n"⟩,
   "Division Property",
   "If n has a proper divisor d, then n/d is also a divisor, and the smallest such d must be prime"⟩

def ftaStep3 : ProofStep :=
  ⟨[ftaStep2.conclusion],
   ⟨"By strong induction, both d and n/d can be expressed as products of primes"⟩,
   "Strong Induction",
   "Since d < n and n/d < n, by inductive hypothesis both have prime factorizations"⟩

def ftaStep4 : ProofStep :=
  ⟨[ftaStep1.conclusion, ftaStep3.conclusion],
   existenceStmt,
   "Inductive Construction",
   "Base case: primes factor as themselves. Inductive step: composite n = d * (n/d) where both factors have prime factorizations"⟩

def ftaStep5 : ProofStep :=
  ⟨[existenceStmt],
   ⟨"Assume n has two different prime factorizations: n = p1 * p2 * ... * pk = q1 * q2 * ... * qm"⟩,
   "Proof by Contradiction Setup",
   "To prove uniqueness, assume the contrary and derive a contradiction"⟩

def ftaStep6 : ProofStep :=
  ⟨[ftaStep5.conclusion],
   ⟨"Since p1 divides the left side, p1 must divide some q_j on the right side"⟩,
   "Divisibility Property",
   "If a prime divides a product, it must divide at least one factor"⟩

def ftaStep7 : ProofStep :=
  ⟨[ftaStep6.conclusion],
   ⟨"Since p1 and q_j are both prime and p1 divides q_j, we have p1 = q_j"⟩,
   "Prime Property",
   "A prime number has no proper divisors, so if one prime divides another, they must be equal"⟩

def ftaStep8 : ProofStep :=
  ⟨[ftaStep7.conclusion],
   uniquenessStmt,
   "Inductive Cancellation",
   "Cancel equal primes from both sides and repeat the argument until both factorizations are shown to be identical"⟩

def ftaStep9 : ProofStep :=
  ⟨[existenceStmt, uniquenessStmt],
   ⟨ftaDescription⟩,
   "Conjunction",
   "The Fundamental Theorem follows from both existence and uniqueness of prime factorization"⟩

/-- `create_fundamental_theorem_of_arithmetic()`: the statement texts, rules,
justifications and the premise-chaining are transcribed from
`number_theory.py`; the container model is from the spec (`proofs.py` is
missing from `src/`). -/
def create_fundamental_theorem_of_arithmetic : Theorem :=
  ⟨ftaDescription, true,
   ⟨ftaDescription,
    [ftaAx1, ftaAx2, ftaAx3],
    [ftaStep1, ftaStep2, ftaStep3, ftaStep4, ftaStep5, ftaStep6, ftaStep7,
     ftaStep8, ftaStep9]⟩⟩

set_option maxRecDepth 4000 in
/-- C4: `create_fundamental_theorem_of_arithmetic()` returns a Theorem whose
proven flag is true and whose attached Proof holds three axioms and nine steps
satisfying the verify contract (every premise of every step occurs, by
identity, among the proof's axioms or among the conclusions of strictly
earlier steps), so `proof.verify()` returns true; and removing any single one
of the nine steps makes `verify()` return false. -/
theorem create_fundamental_theorem_of_arithmetic_spec :
    create_fundamental_theorem_of_arithmetic.proven = true ∧
    create_fundamental_theorem_of_arithmetic.proof.axioms.length = 3 ∧
    create_fundamental_theorem_of_arithmetic.proof.steps.length = 9 ∧
    create_fundamental_theorem_of_arithmetic.proof.verify = true ∧
    (∀ i, i < 9 →
      (removeStep create_fundamental_theorem_of_arithmetic.proof i).verify = false) := by
  decide

/-- Witness: removing the final step of the fundamental-theorem proof makes
verification fail. -/
theorem create_fundamental_theorem_of_arithmetic_spec_witness :
    (removeStep create_fundamental_theorem_of_arithmetic.proof 8).verify = false :=
  create_fundamental_theorem_of_arithmetic_spec.2.2.2.2 8 (by decide)

/-! ### Collatz sequences

`collatz_sequence(n)` runs `while n != 1` with no termination guard; the loop
is modelled with an explicit fuel parameter, `none` standing for "the loop has
not yet terminated within `fuel` iterations". The Python function terminating
on every `n >= 1` — i.e. for every such `n` some fuel suffices — is precisely
the Collatz conjecture, which is open; no theorem below settles it. -/

/-- The body of the `while n != 1` loop of `collatz_sequence`: the elements
appended after the head, or `none` if `fuel` iterations do not reach 1. -/
def collatzGo : ℕ → ℤ → Option (List ℤ)
  | 0, n => if n = 1 then some [] else none
  | fuel + 1, n =>
    if n = 1 then some []
    else
      match collatzGo fuel (if n.fmod 2 = 0 then n.fdiv 2 else 3 * n + 1) with
      | some rest => some ((if n.fmod 2 = 0 then n.fdiv 2 else 3 * n + 1) :: rest)
      | none => none

/-- `collatz_sequence(n)`, fuel-indexed: `n <= 0` returns `[]`; otherwise the
sequence starts at `n` and extends by the loop until it reaches 1, if it does
so within `fuel` iterations. -/
def collatz_sequence (fuel : ℕ) (n : ℤ) : Option (List ℤ) :=
  if n ≤ 0 then some []
  else
    match collatzGo fuel n with
    | some rest => some (n :: rest)
    | none => none
